import Mathlib

/-!
Verification of the esbmc-ai sample corpus and of the static bug-pattern
checker specified for it.  Each C sample relevant to a claim is shallowly
embedded: pure C functions become Lean functions on `Int`, array accesses
become checked accesses (either aborting via `Except` or logging
out-of-bounds events), and `assert` becomes an `Except` check carrying the
source line.  The checker itself (absent from the sources) is modelled from
the specification text.
-/

/-! ## Shared combinators for the checked-access C embeddings -/

namespace CExcept

/-- An out-of-bounds access: source line and offending index. -/
structure OOB where
  line : Nat
  idx : Int
deriving DecidableEq

/-- Sequencing of checked computations (explicit `Except` bind). -/
def bindE {α β : Type} (x : Except OOB α) (f : α → Except OOB β) :
    Except OOB β :=
  match x with
  | .error e => .error e
  | .ok a => f a

@[simp] theorem bindE_ok {α β : Type} (a : α) (f : α → Except OOB β) :
    bindE (.ok a) f = f a := rfl

@[simp] theorem bindE_error {α β : Type} (e : OOB) (f : α → Except OOB β) :
    bindE (.error e) f = .error e := rfl

/-- Checked array read at a `Nat` index. -/
def readArr (arr : List Int) (line idx : Nat) : Except OOB Int :=
  match arr.get? idx with
  | some v => .ok v
  | none => .error ⟨line, idx⟩

/-- Checked array write at a `Nat` index. -/
def writeArr (arr : List Int) (line idx : Nat) (v : Int) :
    Except OOB (List Int) :=
  if idx < arr.length then .ok (arr.set idx v) else .error ⟨line, idx⟩

theorem readArr_ok (arr : List Int) (line idx : Nat) (h : idx < arr.length) :
    readArr arr line idx = .ok (arr.get ⟨idx, h⟩) := by
  rw [readArr, List.get?_eq_get h]

theorem readArr_oob (arr : List Int) (line idx : Nat) (h : arr.length ≤ idx) :
    readArr arr line idx = .error ⟨line, idx⟩ := by
  rw [readArr, List.get?_eq_none.mpr h]

theorem writeArr_ok (arr : List Int) (line idx : Nat) (v : Int)
    (h : idx < arr.length) : writeArr arr line idx v = .ok (arr.set idx v) := by
  rw [writeArr, if_pos h]

end CExcept

/-! ## timer.c: `timer_tick` as a trace of events on the pointer `time_str` -/

namespace Timer

/-- Abstract per-pointer heap state. -/
inductive PtrState where
  | unalloc
  | live
  | freed
deriving DecidableEq

/-- Events on the tracked pointer, tagged with the source line they occur at. -/
inductive Event where
  | alloc (line : Nat)
  | free (line : Nat)
  | read (line : Nat)
deriving DecidableEq

/-- Violations of the heap invariant: never free a Freed pointer, never read
a Freed pointer. -/
inductive Violation where
  | doubleFree (line : Nat)
  | useAfterFree (line : Nat)
deriving DecidableEq

/-- One step of the per-pointer state machine, returning the new state and
the violations the event triggers. -/
def stepEvent (s : PtrState) (e : Event) : PtrState × List Violation :=
  match e with
  | .alloc _ => (.live, [])
  | .free line =>
    match s with
    | .freed => (.freed, [.doubleFree line])
    | _ => (.freed, [])
  | .read line =>
    match s with
    | .freed => (.freed, [.useAfterFree line])
    | _ => (s, [])

/-- Run the step relation over a whole event trace, collecting violations. -/
def runEvents (s : PtrState) : List Event → List Violation
  | [] => []
  | e :: es =>
    let p := stepEvent s e
    p.2 ++ runEvents p.1 es

/-- The event trace of one call `timer_tick(clock, seconds, tick_rate)` on
`time_str`: allocation inside `clock_get_formatted_time` (call at line 9),
`free` at line 11, `free` again at line 12 with no intervening reassignment,
then one `printf` read per loop iteration at line 16; the loop
`for (remaining = seconds; remaining > 0; --remaining)` runs
`seconds.toNat` times. -/
def timerTickTrace (seconds : Int) : List Event :=
  [.alloc 9, .free 11, .free 12] ++ List.replicate seconds.toNat (.read 16)

/-- Violations of one call of `timer_tick`, starting from an unallocated pointer. -/
def timerTickViolations (seconds : Int) : List Violation :=
  runEvents .unalloc (timerTickTrace seconds)

theorem runEvents_read_freed (n : Nat) :
    runEvents .freed (List.replicate n (.read 16)) =
      List.replicate n (.useAfterFree 16) := by
  induction n with
  | zero => rfl
  | succ k ih => simp [List.replicate_succ, runEvents, stepEvent, ih]

end Timer

/-! ## bubble_sort.c: `buggy_bubble_sort` with aborting checked indexing -/

namespace BubbleSort

open CExcept

/-- Body of the inner loop at index `j` (lines 7-11 of bubble_sort.c):
compare `arr[j] > arr[j+1]` at line 7, swap via lines 8-10 when true. -/
def innerBody (arr : List Int) (j : Nat) : Except OOB (List Int) :=
  bindE (readArr arr 7 j) fun aj =>
  bindE (readArr arr 7 (j + 1)) fun aj1 =>
  if aj > aj1 then
    bindE (readArr arr 8 j) fun temp =>
    bindE (readArr arr 9 (j + 1)) fun v =>
    bindE (writeArr arr 9 j v) fun arr1 =>
    writeArr arr1 10 (j + 1) temp
  else .ok arr

/-- The inner `for (j = 0; j < n; j++)` loop, as iteration over the list of
values of `j`. -/
def innerLoop (arr : List Int) : List Nat → Except OOB (List Int)
  | [] => .ok arr
  | j :: js => bindE (innerBody arr j) fun arr1 => innerLoop arr1 js

/-- The outer `for (i = 0; i < n; i++)` loop; `i` is unused in the body. -/
def outerLoop (n : Nat) (arr : List Int) : Nat → Except OOB (List Int)
  | 0 => .ok arr
  | k + 1 =>
    bindE (innerLoop arr (List.range n)) fun arr1 => outerLoop n arr1 k

/-- `buggy_bubble_sort(arr, n)`: both loops run `n` times. -/
def buggy_bubble_sort (arr : List Int) (n : Nat) : Except OOB (List Int) :=
  outerLoop n arr n

theorem innerBody_ok (arr : List Int) (j : Nat) (h : j + 1 < arr.length) :
    ∃ arr2, innerBody arr j = .ok arr2 ∧ arr2.length = arr.length := by
  have hj : j < arr.length := Nat.lt_of_succ_lt h
  rw [innerBody, readArr_ok arr 7 j hj, readArr_ok arr 7 (j + 1) h]
  simp only [bindE_ok]
  by_cases hc : arr.get ⟨j, hj⟩ > arr.get ⟨j + 1, h⟩
  · rw [if_pos hc, readArr_ok arr 8 j hj, readArr_ok arr 9 (j + 1) h]
    simp only [bindE_ok]
    rw [writeArr_ok arr 9 j _ hj]
    simp only [bindE_ok]
    rw [writeArr_ok _ 10 (j + 1) _ (by simpa using h)]
    exact ⟨_, rfl, by simp⟩
  · rw [if_neg hc]
    exact ⟨arr, rfl, rfl⟩

theorem innerLoop_ok (js : List Nat) :
    ∀ arr : List Int, (∀ j ∈ js, j + 1 < arr.length) →
      ∃ arr2, innerLoop arr js = .ok arr2 ∧ arr2.length = arr.length := by
  induction js with
  | nil => intro arr _; exact ⟨arr, rfl, rfl⟩
  | cons j js ih =>
    intro arr hb
    obtain ⟨arr1, h1, hlen1⟩ := innerBody_ok arr j (hb j (by simp))
    obtain ⟨arr2, h2, hlen2⟩ := ih arr1 (fun x hx => hlen1 ▸ hb x (by simp [hx]))
    refine ⟨arr2, ?_, hlen2.trans hlen1⟩
    rw [innerLoop, h1, bindE_ok]
    exact h2

theorem innerLoop_append (xs ys : List Nat) :
    ∀ arr : List Int, innerLoop arr (xs ++ ys) =
      bindE (innerLoop arr xs) fun a => innerLoop a ys := by
  induction xs with
  | nil => intro arr; rfl
  | cons x xs ih =>
    intro arr
    rw [List.cons_append, innerLoop, innerLoop]
    cases h : innerBody arr x with
    | error e => rw [bindE_error, bindE_error, bindE_error]
    | ok arr1 => rw [bindE_ok, bindE_ok, ih arr1]

theorem innerLoop_last_oob (arr : List Int) (n : Nat) (hlen : arr.length = n)
    (hn : 1 ≤ n) : innerLoop arr (List.range n) = .error ⟨7, n⟩ := by
  obtain ⟨m, rfl⟩ : ∃ m, n = m + 1 := ⟨n - 1, by omega⟩
  rw [List.range_succ, innerLoop_append]
  obtain ⟨arr2, h2, hlen2⟩ := innerLoop_ok (List.range m) arr
    (fun j hj => by have := List.mem_range.mp hj; omega)
  rw [h2, bindE_ok]
  show bindE (innerBody arr2 m) _ = _
  have hm : m < arr2.length := by omega
  rw [innerBody, readArr_ok arr2 7 m hm,
    readArr_oob arr2 7 (m + 1) (by omega)]
  rfl

end BubbleSort

/-- Claim C1: every call of `timer_tick` violates the heap invariant: the
violation list is the double free at line 12 followed by one use-after-free
read at line 16 per loop iteration; so there is exactly one double-free
event, the number of freed reads equals the iteration count `seconds.toNat`
(positive exactly when `seconds >= 1`), and the violation list is never
empty. -/
theorem timer_tick_claims (seconds : Int) :
    Timer.timerTickViolations seconds =
      .doubleFree 12 :: List.replicate seconds.toNat (.useAfterFree 16) ∧
    (Timer.timerTickViolations seconds).count (.doubleFree 12) = 1 ∧
    (Timer.timerTickViolations seconds).count (.useAfterFree 16) =
      seconds.toNat ∧
    Timer.timerTickViolations seconds ≠ [] := by
  have hmain : Timer.timerTickViolations seconds =
      .doubleFree 12 :: List.replicate seconds.toNat (.useAfterFree 16) := by
    simp [Timer.timerTickViolations, Timer.timerTickTrace, Timer.runEvents,
      Timer.stepEvent, Timer.runEvents_read_freed]
  refine ⟨hmain, ?_, ?_, ?_⟩
  · rw [hmain, List.count_cons_self, List.count_replicate]
    simp
  · rw [hmain, List.count_cons_of_ne (by simp), List.count_replicate]
    simp
  · rw [hmain]; simp

/-- Claim C2: for every array of length `n >= 1`, `buggy_bubble_sort` hits
the out-of-bounds branch reading index `n` at the comparison on line 7. -/
theorem bubble_sort_oob (arr : List Int) (n : Nat) (hlen : arr.length = n)
    (hn : 1 ≤ n) :
    BubbleSort.buggy_bubble_sort arr n = .error ⟨7, n⟩ := by
  obtain ⟨k, rfl⟩ : ∃ k, n = k + 1 := ⟨n - 1, by omega⟩
  rw [BubbleSort.buggy_bubble_sort, BubbleSort.outerLoop,
    BubbleSort.innerLoop_last_oob arr (k + 1) hlen hn, CExcept.bindE_error]

/-- Witness for C2 at the concrete array from `main` of bubble_sort.c. -/
theorem bubble_sort_oob_witness :
    ([5, 3, 2, 4, 1] : List Int).length = 5 ∧ 1 ≤ 5 ∧
      BubbleSort.buggy_bubble_sort [5, 3, 2, 4, 1] 5 = .error ⟨7, 5⟩ :=
  ⟨by decide, by decide, bubble_sort_oob [5, 3, 2, 4, 1] 5 (by decide) (by decide)⟩

/-! ## dijkstra_unsafe.c: event-collecting semantics

Out-of-bounds accesses do not abort: they log an event (source line, array
name, index) and yield the modelled unspecified value `0` (reads) or leave
the array unchanged (writes), mirroring what a checker observes on each
access. -/

def INT_MAX : Int := 2147483647

namespace DijkstraUnsafe

/-- An out-of-bounds access event. -/
structure Ev where
  line : Nat
  arr : String
  idx : Int
deriving DecidableEq

/-- Checked read; an out-of-bounds read logs an event and yields `0`. -/
def readA (xs : List Int) (name : String) (line : Nat) (idx : Int) :
    Int × List Ev :=
  if h : 0 ≤ idx ∧ idx.toNat < xs.length then (xs.get ⟨idx.toNat, h.2⟩, [])
  else (0, [⟨line, name, idx⟩])

/-- Checked write; an out-of-bounds write logs an event, array unchanged. -/
def writeA (xs : List Int) (name : String) (line : Nat) (idx : Int)
    (v : Int) : List Int × List Ev :=
  if 0 ≤ idx ∧ idx.toNat < xs.length then (xs.set idx.toNat v, [])
  else (xs, [⟨line, name, idx⟩])

/-- Checked 2-dimensional read `graph[i][j]`. -/
def readG (g : List (List Int)) (line : Nat) (i j : Int) : Int × List Ev :=
  if h : 0 ≤ i ∧ i.toNat < g.length then
    readA (g.get ⟨i.toNat, h.2⟩) "graph" line j
  else (0, [⟨line, "graph", i⟩])

/-- One iteration of the loop of `minDistance` at vertex `v` on state
`(min, min_index)`: `!sptSet[v]` (line 10), `dist[v] <= min` (line 11),
`min = dist[v]` (line 12), `min_index = v` (line 13). -/
def mdStep (dist sptSet : List Int) (st : Int × Int) (v : Nat) :
    (Int × Int) × List Ev :=
  let s := readA sptSet "sptSet" 10 v
  if s.1 = 0 then
    let d := readA dist "dist" 11 v
    if d.1 ≤ st.1 then
      let d2 := readA dist "dist" 12 v
      ((d2.1, (v : Int)), s.2 ++ (d.2 ++ d2.2))
    else (st, s.2 ++ d.2)
  else (st, s.2)

def mdLoop (dist sptSet : List Int) :
    List Nat → Int × Int → (Int × Int) × List Ev
  | [], st => (st, [])
  | v :: vs, st =>
    let p := mdStep dist sptSet st v
    let q := mdLoop dist sptSet vs p.1
    (q.1, p.2 ++ q.2)

/-- `minDistance` of dijkstra_unsafe.c: `min = INT_MAX`, `min_index = -1`,
loop `v` from 0 to V inclusive (the `v <= V` bug, line 9), return
`min_index` and the logged events. -/
def minDistance (dist sptSet : List Int) : Int × List Ev :=
  let p := mdLoop dist sptSet (List.range 6) (INT_MAX, -1)
  (p.1.2, p.2)

/-- Init loop of `dijkstra` (lines 32-35): `i` from 0 to V inclusive,
`dist[i] = INT_MAX` (line 33), `sptSet[i] = 0` (line 34). -/
def initLoop (st : List Int × List Int) : List Nat →
    (List Int × List Int) × List Ev
  | [] => (st, [])
  | i :: ks =>
    let w1 := writeA st.1 "dist" 33 i INT_MAX
    let w2 := writeA st.2 "sptSet" 34 i 0
    let q := initLoop (w1.1, w2.1) ks
    (q.1, w1.2 ++ (w2.2 ++ q.2))

/-- Body of the relax loop (lines 43-48) at vertex `v`, with `u` the vertex
picked by `minDistance`; short-circuit evaluation of the condition at lines
45-46, assignment at line 47. -/
def relaxStep (graph : List (List Int)) (u : Int) (sptSet : List Int)
    (dist : List Int) (v : Nat) : List Int × List Ev :=
  let s := readA sptSet "sptSet" 45 v
  if s.1 = 0 then
    let g := readG graph 45 u v
    if g.1 ≠ 0 then
      let du := readA dist "dist" 45 u
      if du.1 ≠ INT_MAX then
        let dv := readA dist "dist" 46 v
        if du.1 + g.1 < dv.1 then
          let w := writeA dist "dist" 47 v (du.1 + g.1)
          (w.1, s.2 ++ (g.2 ++ (du.2 ++ (dv.2 ++ w.2))))
        else (dist, s.2 ++ (g.2 ++ (du.2 ++ dv.2)))
      else (dist, s.2 ++ (g.2 ++ du.2))
    else (dist, s.2 ++ g.2)
  else (dist, s.2)

def relaxLoop (graph : List (List Int)) (u : Int) (sptSet : List Int) :
    List Nat → List Int → List Int × List Ev
  | [], dist => (dist, [])
  | v :: vs, dist =>
    let p := relaxStep graph u sptSet dist v
    let q := relaxLoop graph u sptSet vs p.1
    (q.1, p.2 ++ q.2)

/-- One iteration of the outer loop of `dijkstra` (lines 39-49). -/
def outerBody (graph : List (List Int)) (st : List Int × List Int) :
    (List Int × List Int) × List Ev :=
  let p := minDistance st.1 st.2
  let w := writeA st.2 "sptSet" 41 p.1 1
  let q := relaxLoop graph p.1 w.1 (List.range 5) st.1
  ((q.1, w.1), p.2 ++ (w.2 ++ q.2))

def outerLoop (graph : List (List Int)) :
    Nat → List Int × List Int → (List Int × List Int) × List Ev
  | 0, st => (st, [])
  | k + 1, st =>
    let p := outerBody graph st
    let q := outerLoop graph k p.1
    (q.1, p.2 ++ q.2)

/-- Loop of `printSolution`: reads `dist[i]` at line 23. -/
def printLoop (dist : List Int) : List Nat → List Ev
  | [] => []
  | i :: ks => (readA dist "dist" 23 i).2 ++ printLoop dist ks

/-- `printSolution` (lines 20-24): reads `dist[i]` for `i < V` at line 23. -/
def printSolution (dist : List Int) : List Ev :=
  printLoop dist (List.range 5)

/-- `dijkstra` of dijkstra_unsafe.c; local arrays `dist`, `sptSet` of length
V = 5 (uninitialized contents modelled as 0). -/
def dijkstra (graph : List (List Int)) (src : Int) :
    (List Int × List Int) × List Ev :=
  let p := initLoop (List.replicate 5 0, List.replicate 5 0) (List.range 6)
  let w := writeA p.1.1 "dist" 37 src 0
  let q := outerLoop graph 4 (w.1, p.1.2)
  (q.1, p.2 ++ (w.2 ++ (q.2 ++ printSolution q.1.1)))

/-- Count of logged events at a given source line. -/
def countLine (l : Nat) (evs : List Ev) : Nat :=
  evs.countP (fun e => e.line == l)

theorem readA_in (xs : List Int) (name : String) (line : Nat) (idx : Int)
    (h0 : 0 ≤ idx) (h1 : idx.toNat < xs.length) :
    readA xs name line idx = (xs.get ⟨idx.toNat, h1⟩, []) := by
  rw [readA, dif_pos (⟨h0, h1⟩ : 0 ≤ idx ∧ idx.toNat < xs.length)]

theorem readA_out (xs : List Int) (name : String) (line : Nat) (idx : Int)
    (h : ¬(0 ≤ idx ∧ idx.toNat < xs.length)) :
    readA xs name line idx = (0, [⟨line, name, idx⟩]) := dif_neg h

theorem readA_line (xs : List Int) (name : String) (line : Nat) (idx : Int) :
    ∀ e ∈ (readA xs name line idx).2, e.line = line := by
  rw [readA]
  split
  · simp
  · intro e he
    simp only [List.mem_singleton] at he
    rw [he]

theorem readG_line (g : List (List Int)) (line : Nat) (i j : Int) :
    ∀ e ∈ (readG g line i j).2, e.line = line := by
  rw [readG]
  split
  · exact readA_line _ _ _ _
  · intro e he
    simp only [List.mem_singleton] at he
    rw [he]

theorem writeA_length (xs : List Int) (name : String) (line : Nat)
    (idx : Int) (v : Int) : ((writeA xs name line idx v).1).length = xs.length := by
  rw [writeA]
  split <;> simp

theorem writeA_line (xs : List Int) (name : String) (line : Nat) (idx : Int)
    (v : Int) : ∀ e ∈ (writeA xs name line idx v).2, e.line = line := by
  rw [writeA]
  split
  · simp
  · intro e he
    simp only [List.mem_singleton] at he
    rw [he]

theorem mdStep_events_lt (dist sptSet : List Int) (st : Int × Int) (v : Nat)
    (hd : dist.length = 5) (hs : sptSet.length = 5) (hv : v < 5) :
    (mdStep dist sptSet st v).2 = [] := by
  simp only [mdStep]
  rw [readA_in sptSet "sptSet" 10 (v : Int) (by omega) (by omega),
    readA_in dist "dist" 11 (v : Int) (by omega) (by omega),
    readA_in dist "dist" 12 (v : Int) (by omega) (by omega)]
  simp only [apply_ite (Prod.snd : (Int × Int) × List Ev → List Ev)]
  simp

theorem mdStep_events_five (dist sptSet : List Int) (st : Int × Int)
    (hd : dist.length = 5) (hs : sptSet.length = 5) :
    ∃ tail, (mdStep dist sptSet st 5).2 =
        ⟨10, "sptSet", 5⟩ :: ⟨11, "dist", 5⟩ :: tail ∧
      (tail = [] ∨ tail = [⟨12, "dist", 5⟩]) := by
  simp only [mdStep]
  push_cast
  rw [readA_out sptSet "sptSet" 10 5 (by omega),
    readA_out dist "dist" 11 5 (by omega),
    readA_out dist "dist" 12 5 (by omega)]
  by_cases hm : (0 : Int) ≤ st.1
  · refine ⟨[⟨12, "dist", 5⟩], ?_, Or.inr rfl⟩
    simp [hm]
  · refine ⟨[], ?_, Or.inl rfl⟩
    simp [hm]

theorem mdLoop_events_lt (dist sptSet : List Int)
    (hd : dist.length = 5) (hs : sptSet.length = 5) :
    ∀ vs : List Nat, (∀ v ∈ vs, v < 5) → ∀ st : Int × Int,
      (mdLoop dist sptSet vs st).2 = [] := by
  intro vs
  induction vs with
  | nil => intro _ st; rfl
  | cons v vs ih =>
    intro hb st
    simp only [mdLoop]
    rw [mdStep_events_lt dist sptSet st v hd hs (hb v (by simp)),
      ih (fun x hx => hb x (by simp [hx]))]
    simp

theorem mdLoop_append (dist sptSet : List Int) (xs ys : List Nat) :
    ∀ st : Int × Int, mdLoop dist sptSet (xs ++ ys) st =
      ((mdLoop dist sptSet ys (mdLoop dist sptSet xs st).1).1,
        (mdLoop dist sptSet xs st).2 ++
          (mdLoop dist sptSet ys (mdLoop dist sptSet xs st).1).2) := by
  induction xs with
  | nil => intro st; simp [mdLoop]
  | cons x xs ih =>
    intro st
    simp only [List.cons_append, mdLoop, List.append_eq, ih, List.append_assoc]

theorem minDistance_events (dist sptSet : List Int)
    (hd : dist.length = 5) (hs : sptSet.length = 5) :
    ∃ tail, (minDistance dist sptSet).2 =
        ⟨10, "sptSet", 5⟩ :: ⟨11, "dist", 5⟩ :: tail ∧
      (tail = [] ∨ tail = [⟨12, "dist", 5⟩]) := by
  rw [minDistance]
  rw [show (6 : Nat) = 5 + 1 from rfl, List.range_succ, mdLoop_append]
  rw [mdLoop_events_lt dist sptSet hd hs (List.range 5)
    (fun v hv => List.mem_range.mp hv)]
  obtain ⟨tail, htail, hcases⟩ := mdStep_events_five dist sptSet
    (mdLoop dist sptSet (List.range 5) (INT_MAX, -1)).1 hd hs
  refine ⟨tail, ?_, hcases⟩
  simp only [mdLoop, List.nil_append, List.append_nil]
  exact htail

theorem relaxStep_length (graph : List (List Int)) (u : Int)
    (sptSet dist : List Int) (v : Nat) :
    ((relaxStep graph u sptSet dist v).1).length = dist.length := by
  simp only [relaxStep]
  split_ifs <;> simp [writeA_length]

theorem relaxStep_lines (graph : List (List Int)) (u : Int)
    (sptSet dist : List Int) (v : Nat) :
    ∀ e ∈ (relaxStep graph u sptSet dist v).2, 45 ≤ e.line := by
  simp only [relaxStep]
  split_ifs <;> intro e he <;> simp only [List.mem_append] at he
  · rcases he with h | h | h | h | h
    · have := readA_line _ _ _ _ e h; omega
    · have := readG_line _ _ _ _ e h; omega
    · have := readA_line _ _ _ _ e h; omega
    · have := readA_line _ _ _ _ e h; omega
    · have := writeA_line _ _ _ _ _ e h; omega
  · rcases he with h | h | h | h
    · have := readA_line _ _ _ _ e h; omega
    · have := readG_line _ _ _ _ e h; omega
    · have := readA_line _ _ _ _ e h; omega
    · have := readA_line _ _ _ _ e h; omega
  · rcases he with h | h | h
    · have := readA_line _ _ _ _ e h; omega
    · have := readG_line _ _ _ _ e h; omega
    · have := readA_line _ _ _ _ e h; omega
  · rcases he with h | h
    · have := readA_line _ _ _ _ e h; omega
    · have := readG_line _ _ _ _ e h; omega
  · have := readA_line _ _ _ _ e he; omega

theorem relaxLoop_length (graph : List (List Int)) (u : Int)
    (sptSet : List Int) (vs : List Nat) :
    ∀ dist : List Int,
      ((relaxLoop graph u sptSet vs dist).1).length = dist.length := by
  induction vs with
  | nil => intro dist; rfl
  | cons v vs ih =>
    intro dist
    simp only [relaxLoop]
    rw [ih, relaxStep_length]

theorem relaxLoop_lines (graph : List (List Int)) (u : Int)
    (sptSet : List Int) (vs : List Nat) :
    ∀ dist : List Int,
      ∀ e ∈ (relaxLoop graph u sptSet vs dist).2, 45 ≤ e.line := by
  induction vs with
  | nil => intro dist e he; cases he
  | cons v vs ih =>
    intro dist e he
    simp only [relaxLoop, List.mem_append] at he
    rcases he with h | h
    · exact relaxStep_lines graph u sptSet dist v e h
    · exact ih _ e h

theorem outerBody_events (graph : List (List Int)) (st : List Int × List Int)
    (hd : st.1.length = 5) (hs : st.2.length = 5) :
    ((outerBody graph st).1.1.length = 5 ∧ (outerBody graph st).1.2.length = 5) ∧
    ∃ tail, (outerBody graph st).2 =
        ⟨10, "sptSet", 5⟩ :: ⟨11, "dist", 5⟩ :: tail ∧
      ∀ e ∈ tail, e.line = 12 ∨ 41 ≤ e.line := by
  obtain ⟨tail, htail, hcases⟩ := minDistance_events st.1 st.2 hd hs
  constructor
  · constructor
    · simp only [outerBody]
      rw [relaxLoop_length]
      exact hd
    · simp only [outerBody]
      rw [writeA_length]
      exact hs
  · refine ⟨tail ++ ((writeA st.2 "sptSet" 41 (minDistance st.1 st.2).1 1).2 ++
      (relaxLoop graph (minDistance st.1 st.2).1
        (writeA st.2 "sptSet" 41 (minDistance st.1 st.2).1 1).1
        (List.range 5) st.1).2), ?_, ?_⟩
    · simp only [outerBody]
      rw [htail]
      simp [List.append_assoc]
    · intro e he
      simp only [List.mem_append] at he
      rcases he with h | h | h
      · rcases hcases with hc | hc
        · rw [hc] at h; cases h
        · rw [hc] at h
          simp only [List.mem_singleton] at h
          rw [h]
          exact Or.inl rfl
      · have := writeA_line _ _ _ _ _ e h
        omega
      · have := relaxLoop_lines _ _ _ _ _ e h
        omega

theorem countLine_of_forall_ne {l : Nat} {evs : List Ev}
    (h : ∀ e ∈ evs, e.line ≠ l) : countLine l evs = 0 := by
  rw [countLine, List.countP_eq_zero]
  intro e he
  simp [h e he]

theorem countLine_append (l : Nat) (xs ys : List Ev) :
    countLine l (xs ++ ys) = countLine l xs + countLine l ys :=
  List.countP_append _ _ _

theorem outerLoop_events (graph : List (List Int)) :
    ∀ (k : Nat) (st : List Int × List Int),
      st.1.length = 5 → st.2.length = 5 →
      ((outerLoop graph k st).1.1.length = 5 ∧
        (outerLoop graph k st).1.2.length = 5) ∧
      countLine 10 (outerLoop graph k st).2 = k ∧
      countLine 11 (outerLoop graph k st).2 = k ∧
      (∀ e ∈ (outerLoop graph k st).2,
        (e.line = 10 → e = ⟨10, "sptSet", 5⟩) ∧
        (e.line = 11 → e = ⟨11, "dist", 5⟩) ∧
        10 ≤ e.line ∧ e.line ≠ 33 ∧ e.line ≠ 34 ∧ e.line ≠ 23 ∧ e.line ≠ 37) := by
  intro k
  induction k with
  | zero =>
    intro st hd hs
    exact ⟨⟨hd, hs⟩, rfl, rfl, by intro e he; cases he⟩
  | succ k ih =>
    intro st hd hs
    obtain ⟨⟨hd1, hs1⟩, tail, htail, htl⟩ := outerBody_events graph st hd hs
    obtain ⟨⟨hd2, hs2⟩, h10, h11, hmem⟩ := ih (outerBody graph st).1 hd1 hs1
    have hsplit : (outerLoop graph (k + 1) st).2 =
        (outerBody graph st).2 ++ (outerLoop graph k (outerBody graph st).1).2 := rfl
    have htc10 : countLine 10 tail = 0 :=
      countLine_of_forall_ne (fun e he => by rcases htl e he with h | h <;> omega)
    have htc11 : countLine 11 tail = 0 :=
      countLine_of_forall_ne (fun e he => by rcases htl e he with h | h <;> omega)
    refine ⟨⟨hd2, hs2⟩, ?_, ?_, ?_⟩
    · rw [hsplit, countLine_append, htail, h10]
      simp only [countLine, List.countP_cons]
      rw [show List.countP (fun e => e.line == 10) tail = countLine 10 tail from rfl,
        htc10]
      simp
      omega
    · rw [hsplit, countLine_append, htail, h11]
      simp only [countLine, List.countP_cons]
      rw [show List.countP (fun e => e.line == 11) tail = countLine 11 tail from rfl,
        htc11]
      simp
      omega
    · intro e he
      rw [hsplit] at he
      simp only [List.mem_append] at he
      rcases he with h | h
      · rw [htail] at h
        simp only [List.mem_cons] at h
        rcases h with h | h | h
        · rw [h]; decide
        · rw [h]; decide
        · rcases htl e h with hl | hl <;>
            exact ⟨fun hc => by omega, fun hc => by omega, by omega⟩
      · exact hmem e h

theorem initLoop_eval :
    initLoop (List.replicate 5 0, List.replicate 5 0) (List.range 6) =
      ((List.replicate 5 INT_MAX, List.replicate 5 0),
        [⟨33, "dist", 5⟩, ⟨34, "sptSet", 5⟩]) := by
  decide

theorem printLoop_lines (dist : List Int) (ks : List Nat) :
    ∀ e ∈ printLoop dist ks, e.line = 23 := by
  induction ks with
  | nil => intro e he; cases he
  | cons i ks ih =>
    intro e he
    simp only [printLoop, List.mem_append] at he
    rcases he with h | h
    · exact readA_line _ _ _ _ e h
    · exact ih e h

end DijkstraUnsafe

/-- Claim C3: every execution of `dijkstra` of dijkstra_unsafe.c (any graph,
any source) logs out-of-bounds accesses at index V = 5 on the 5-element
arrays: exactly one out-of-bounds write to `dist[5]` from the init loop
(line 33), exactly one to `sptSet[5]` (line 34), and in each of the four
`minDistance` calls one out-of-bounds read of `sptSet[5]` (line 10) and —
since the unspecified value read for `sptSet[5]` is modelled as 0 — one of
`dist[5]` (line 11); every line-10 event is the `sptSet[5]` read and every
line-11 event is the `dist[5]` read. -/
theorem dijkstra_unsafe_oob (graph : List (List Int)) (src : Int) :
    DijkstraUnsafe.countLine 33 (DijkstraUnsafe.dijkstra graph src).2 = 1 ∧
    DijkstraUnsafe.countLine 34 (DijkstraUnsafe.dijkstra graph src).2 = 1 ∧
    DijkstraUnsafe.countLine 10 (DijkstraUnsafe.dijkstra graph src).2 = 4 ∧
    DijkstraUnsafe.countLine 11 (DijkstraUnsafe.dijkstra graph src).2 = 4 ∧
    (⟨33, "dist", 5⟩ : DijkstraUnsafe.Ev) ∈ (DijkstraUnsafe.dijkstra graph src).2 ∧
    (⟨34, "sptSet", 5⟩ : DijkstraUnsafe.Ev) ∈ (DijkstraUnsafe.dijkstra graph src).2 ∧
    (∀ e ∈ (DijkstraUnsafe.dijkstra graph src).2,
      e.line = 10 → e = ⟨10, "sptSet", 5⟩) ∧
    (∀ e ∈ (DijkstraUnsafe.dijkstra graph src).2,
      e.line = 11 → e = ⟨11, "dist", 5⟩) := by
  open DijkstraUnsafe in
  have hwlen : ((writeA (List.replicate 5 INT_MAX) "dist" 37 src 0).1).length = 5 := by
    rw [writeA_length]; simp
  obtain ⟨⟨hq1, hq2⟩, h10, h11, hmem⟩ := DijkstraUnsafe.outerLoop_events graph 4
    ((DijkstraUnsafe.writeA (List.replicate 5 INT_MAX) "dist" 37 src 0).1,
      List.replicate 5 0) hwlen (by simp)
  have hev : (DijkstraUnsafe.dijkstra graph src).2 =
      [⟨33, "dist", 5⟩, ⟨34, "sptSet", 5⟩] ++
        ((DijkstraUnsafe.writeA (List.replicate 5 INT_MAX) "dist" 37 src 0).2 ++
          ((DijkstraUnsafe.outerLoop graph 4
              ((DijkstraUnsafe.writeA (List.replicate 5 INT_MAX) "dist" 37 src 0).1,
                List.replicate 5 0)).2 ++
            DijkstraUnsafe.printSolution (DijkstraUnsafe.outerLoop graph 4
              ((DijkstraUnsafe.writeA (List.replicate 5 INT_MAX) "dist" 37 src 0).1,
                List.replicate 5 0)).1.1)) := by
    simp only [DijkstraUnsafe.dijkstra, DijkstraUnsafe.initLoop_eval]
  have cB : ∀ l : Nat, l ≠ 37 → DijkstraUnsafe.countLine l
      (DijkstraUnsafe.writeA (List.replicate 5 INT_MAX) "dist" 37 src 0).2 = 0 :=
    fun l hl => DijkstraUnsafe.countLine_of_forall_ne (fun e he => by
      have := DijkstraUnsafe.writeA_line _ _ _ _ _ e he; omega)
  have cD : ∀ l : Nat, l ≠ 23 → DijkstraUnsafe.countLine l
      (DijkstraUnsafe.printSolution (DijkstraUnsafe.outerLoop graph 4
        ((DijkstraUnsafe.writeA (List.replicate 5 INT_MAX) "dist" 37 src 0).1,
          List.replicate 5 0)).1.1) = 0 :=
    fun l hl => DijkstraUnsafe.countLine_of_forall_ne (fun e he => by
      have := DijkstraUnsafe.printLoop_lines _ _ e he; omega)
  refine ⟨?_, ?_, ?_, ?_, ?_, ?_, ?_, ?_⟩
  · rw [hev, DijkstraUnsafe.countLine_append, DijkstraUnsafe.countLine_append,
      DijkstraUnsafe.countLine_append]
    have cC : DijkstraUnsafe.countLine 33 (DijkstraUnsafe.outerLoop graph 4
        ((DijkstraUnsafe.writeA (List.replicate 5 INT_MAX) "dist" 37 src 0).1,
          List.replicate 5 0)).2 = 0 :=
      DijkstraUnsafe.countLine_of_forall_ne (fun e he => (hmem e he).2.2.2.1)
    rw [cB 33 (by omega), cC, cD 33 (by omega)]
    decide
  · rw [hev, DijkstraUnsafe.countLine_append, DijkstraUnsafe.countLine_append,
      DijkstraUnsafe.countLine_append]
    have cC : DijkstraUnsafe.countLine 34 (DijkstraUnsafe.outerLoop graph 4
        ((DijkstraUnsafe.writeA (List.replicate 5 INT_MAX) "dist" 37 src 0).1,
          List.replicate 5 0)).2 = 0 :=
      DijkstraUnsafe.countLine_of_forall_ne (fun e he => (hmem e he).2.2.2.2.1)
    rw [cB 34 (by omega), cC, cD 34 (by omega)]
    decide
  · rw [hev, DijkstraUnsafe.countLine_append, DijkstraUnsafe.countLine_append,
      DijkstraUnsafe.countLine_append]
    rw [cB 10 (by omega), h10, cD 10 (by omega)]
    decide
  · rw [hev, DijkstraUnsafe.countLine_append, DijkstraUnsafe.countLine_append,
      DijkstraUnsafe.countLine_append]
    rw [cB 11 (by omega), h11, cD 11 (by omega)]
    decide
  · rw [hev]
    exact List.mem_append_left _ (by decide)
  · rw [hev]
    exact List.mem_append_left _ (by decide)
  · intro e he hl
    rw [hev] at he
    simp only [List.mem_append] at he
    rcases he with h1 | h1 | h1 | h1
    · simp only [List.mem_cons, List.mem_singleton, List.not_mem_nil, or_false] at h1
      rcases h1 with h1 | h1 <;> (rw [h1] at hl; exact absurd hl (by decide))
    · have := DijkstraUnsafe.writeA_line _ _ _ _ _ e h1; omega
    · exact (hmem e h1).1 hl
    · have := DijkstraUnsafe.printLoop_lines _ _ e h1; omega
  · intro e he hl
    rw [hev] at he
    simp only [List.mem_append] at he
    rcases he with h1 | h1 | h1 | h1
    · simp only [List.mem_cons, List.mem_singleton, List.not_mem_nil, or_false] at h1
      rcases h1 with h1 | h1 <;> (rw [h1] at hl; exact absurd hl (by decide))
    · have := DijkstraUnsafe.writeA_line _ _ _ _ _ e h1; omega
    · exact (hmem e h1).2.1 hl
    · have := DijkstraUnsafe.printLoop_lines _ _ e h1; omega

/-! ## dijkstra_safe.c: aborting checked indexing -/

namespace DijkstraSafe

open CExcept

/-- Checked read at an `Int` index. -/
def readI (xs : List Int) (line : Nat) (idx : Int) : Except OOB Int :=
  if h : 0 ≤ idx ∧ idx.toNat < xs.length then .ok (xs.get ⟨idx.toNat, h.2⟩)
  else .error ⟨line, idx⟩

/-- Checked write at an `Int` index. -/
def writeI (xs : List Int) (line : Nat) (idx : Int) (v : Int) :
    Except OOB (List Int) :=
  if 0 ≤ idx ∧ idx.toNat < xs.length then .ok (xs.set idx.toNat v)
  else .error ⟨line, idx⟩

/-- Checked row access `graph[i]`. -/
def readRow (graph : List (List Int)) (line : Nat) (i : Int) :
    Except OOB (List Int) :=
  if h : 0 ≤ i ∧ i.toNat < graph.length then .ok (graph.get ⟨i.toNat, h.2⟩)
  else .error ⟨line, i⟩

/-- Checked 2-dimensional access `graph[i][j]`. -/
def readG (graph : List (List Int)) (line : Nat) (i : Int) (j : Nat) :
    Except OOB Int :=
  bindE (readRow graph line i) fun row => readArr row line j

/-- One iteration of the `minDistance` loop of dijkstra_safe.c at vertex `v`
on state `(min, min_index)`: `!sptSet[v] && dist[v] <= min` (line 11),
`min = dist[v]` (line 12), `min_index = v` (line 13). -/
def mdStep (dist sptSet : List Int) (st : Int × Int) (v : Nat) :
    Except OOB (Int × Int) :=
  bindE (readArr sptSet 11 v) fun s =>
  if s = 0 then
    bindE (readArr dist 11 v) fun d =>
    if d ≤ st.1 then
      bindE (readArr dist 12 v) fun d2 => .ok (d2, (v : Int))
    else .ok st
  else .ok st

def mdLoop (dist sptSet : List Int) :
    List Nat → Int × Int → Except OOB (Int × Int)
  | [], st => .ok st
  | v :: vs, st =>
    bindE (mdStep dist sptSet st v) fun st2 => mdLoop dist sptSet vs st2

/-- `minDistance` of dijkstra_safe.c: `min = INT_MAX`, `min_index = -1`,
loop `v` strictly below V (line 10), return `min_index`. -/
def minDistance (dist sptSet : List Int) : Except OOB Int :=
  bindE (mdLoop dist sptSet (List.range 5) (INT_MAX, -1)) fun st => .ok st.2

/-- Body of the relax loop (lines 46-48) at vertex `v`, with `u` the vertex
picked by `minDistance`; short-circuit evaluation, each array access
checked where it textually occurs. -/
def relaxStep (graph : List (List Int)) (u : Int) (sptSet dist : List Int)
    (v : Nat) : Except OOB (List Int) :=
  bindE (readArr sptSet 46 v) fun s =>
  if s = 0 then
    bindE (readG graph 46 u v) fun g =>
    if g ≠ 0 then
      bindE (readI dist 46 u) fun du =>
      if du ≠ INT_MAX then
        bindE (readI dist 47 u) fun du2 =>
        bindE (readG graph 47 u v) fun g2 =>
        bindE (readArr dist 47 v) fun dv =>
        if du2 + g2 < dv then
          bindE (readI dist 48 u) fun du3 =>
          bindE (readG graph 48 u v) fun g3 =>
          writeArr dist 48 v (du3 + g3)
        else .ok dist
      else .ok dist
    else .ok dist
  else .ok dist

def relaxLoop (graph : List (List Int)) (u : Int) (sptSet : List Int) :
    List Nat → List Int → Except OOB (List Int)
  | [], dist => .ok dist
  | v :: vs, dist =>
    bindE (relaxStep graph u sptSet dist v) fun dist2 =>
      relaxLoop graph u sptSet vs dist2

/-- One iteration of the outer loop (lines 40-49): pick `u` (line 41), mark
it (line 42), relax all vertices (lines 45-48). -/
def outerBody (graph : List (List Int)) (st : List Int × List Int) :
    Except OOB (List Int × List Int) :=
  bindE (minDistance st.1 st.2) fun u =>
  bindE (writeI st.2 42 u 1) fun spt2 =>
  bindE (relaxLoop graph u spt2 (List.range 5) st.1) fun dist2 =>
  .ok (dist2, spt2)

def outerLoop (graph : List (List Int)) :
    Nat → List Int × List Int → Except OOB (List Int × List Int)
  | 0, st => .ok st
  | k + 1, st => bindE (outerBody graph st) fun st2 => outerLoop graph k st2

/-- Init loop (lines 32-35): `i` strictly below V. -/
def initLoop (st : List Int × List Int) :
    List Nat → Except OOB (List Int × List Int)
  | [] => .ok st
  | i :: ks =>
    bindE (writeArr st.1 33 i INT_MAX) fun d2 =>
    bindE (writeArr st.2 34 i 0) fun s2 => initLoop (d2, s2) ks

/-- Loop of `printSolution`: reads `dist[i]` at line 22, `i` strictly below V. -/
def printLoop (dist : List Int) : List Nat → Except OOB Unit
  | [] => .ok ()
  | i :: ks => bindE (readArr dist 22 i) fun _ => printLoop dist ks

/-- `dijkstra` of dijkstra_safe.c; local arrays of length V = 5
(uninitialized contents modelled as 0). -/
def dijkstra (graph : List (List Int)) (src : Int) :
    Except OOB (List Int × List Int) :=
  bindE (initLoop (List.replicate 5 0, List.replicate 5 0) (List.range 5)) fun st =>
  bindE (writeI st.1 37 src 0) fun d2 =>
  bindE (outerLoop graph 4 (d2, st.2)) fun st2 =>
  bindE (printLoop st2.1 (List.range 5)) fun _ => .ok st2

/-- Number of unvisited vertices in `sptSet`. -/
def countZero (sptSet : List Int) : Nat :=
  sptSet.countP (fun x => x == 0)

/-- Invariant on the `(min, min_index)` state of `minDistance`. -/
def mdInv (st : Int × Int) : Prop :=
  (st.2 = -1 → st.1 = INT_MAX) ∧ (st.2 = -1 ∨ (0 ≤ st.2 ∧ st.2 < 5))

theorem mdStep_ok (dist sptSet : List Int) (st : Int × Int) (v : Nat)
    (hd : dist.length = 5) (hs : sptSet.length = 5) (hv : v < 5)
    (hmax : ∀ x ∈ dist, x ≤ INT_MAX) (hI : mdInv st) :
    ∃ st2, mdStep dist sptSet st v = .ok st2 ∧ mdInv st2 ∧
      ((0 ≤ st.2 ∧ st.2 < 5) → (0 ≤ st2.2 ∧ st2.2 < 5)) ∧
      (sptSet.get ⟨v, by omega⟩ = 0 → (0 ≤ st2.2 ∧ st2.2 < 5)) := by
  have hsv : v < sptSet.length := by omega
  have hdv : v < dist.length := by omega
  rw [mdStep, readArr_ok sptSet 11 v hsv, bindE_ok]
  by_cases hz : sptSet.get ⟨v, hsv⟩ = 0
  · rw [if_pos hz, readArr_ok dist 11 v hdv, bindE_ok]
    by_cases hle : dist.get ⟨v, hdv⟩ ≤ st.1
    · rw [if_pos hle, readArr_ok dist 12 v hdv, bindE_ok]
      refine ⟨_, rfl, ⟨fun h => by exfalso; omega, Or.inr (by constructor <;> omega)⟩,
        fun _ => by constructor <;> omega, fun _ => by constructor <;> omega⟩
    · rw [if_neg hle]
      have hne : st.2 ≠ -1 := by
        intro h
        have h1 := hI.1 h
        have h2 := hmax _ (List.get_mem dist v hdv)
        omega
      have hgood : 0 ≤ st.2 ∧ st.2 < 5 := hI.2.resolve_left hne
      exact ⟨st, rfl, hI, fun h => h, fun _ => hgood⟩
  · rw [if_neg hz]
    exact ⟨st, rfl, hI, fun h => h, fun h => absurd h hz⟩

theorem mdLoop_ok (dist sptSet : List Int) (hd : dist.length = 5)
    (hs : sptSet.length = 5) (hmax : ∀ x ∈ dist, x ≤ INT_MAX) :
    ∀ vs : List Nat, (∀ v ∈ vs, v < 5) → ∀ st : Int × Int, mdInv st →
      ∃ st2, mdLoop dist sptSet vs st = .ok st2 ∧ mdInv st2 ∧
        (((∃ v, v ∈ vs ∧ sptSet.get? v = some 0) ∨ (0 ≤ st.2 ∧ st.2 < 5)) →
          0 ≤ st2.2 ∧ st2.2 < 5) := by
  intro vs
  induction vs with
  | nil =>
    intro _ st hI
    refine ⟨st, rfl, hI, ?_⟩
    rintro (⟨v, hv, _⟩ | h)
    · cases hv
    · exact h
  | cons v vs ih =>
    intro hb st hI
    have hv5 : v < 5 := hb v (by simp)
    obtain ⟨st1, hstep, hI1, hstab, hprog⟩ :=
      mdStep_ok dist sptSet st v hd hs hv5 hmax hI
    obtain ⟨st2, hrun, hI2, himp⟩ := ih (fun x hx => hb x (by simp [hx])) st1 hI1
    refine ⟨st2, ?_, hI2, ?_⟩
    · rw [mdLoop, hstep, bindE_ok]
      exact hrun
    · rintro (⟨x, hx, hz⟩ | hgood)
      · rcases List.mem_cons.mp hx with rfl | hx2
        · have hget : sptSet.get ⟨x, by omega⟩ = 0 := by
            rw [List.get?_eq_get (show x < sptSet.length by omega)] at hz
            exact Option.some.inj hz
          exact himp (Or.inr (hprog hget))
        · exact himp (Or.inl ⟨x, hx2, hz⟩)
      · exact himp (Or.inr (hstab hgood))

theorem minDistance_ok (dist sptSet : List Int) (hd : dist.length = 5)
    (hs : sptSet.length = 5) (hmax : ∀ x ∈ dist, x ≤ INT_MAX)
    (hex : ∃ v, v < 5 ∧ sptSet.get? v = some 0) :
    ∃ u : Int, minDistance dist sptSet = .ok u ∧ 0 ≤ u ∧ u < 5 := by
  obtain ⟨v, hv5, hz⟩ := hex
  obtain ⟨st2, hrun, _, hprog⟩ := mdLoop_ok dist sptSet hd hs hmax
    (List.range 5) (fun x hx => List.mem_range.mp hx) (INT_MAX, -1)
    ⟨fun _ => rfl, Or.inl rfl⟩
  have hgood := hprog (Or.inl ⟨v, List.mem_range.mpr hv5, hz⟩)
  refine ⟨st2.2, ?_, hgood.1, hgood.2⟩
  rw [minDistance, hrun, bindE_ok]

theorem relaxStep_ok (graph : List (List Int)) (u : Int)
    (sptSet dist : List Int) (v : Nat) (hg : graph.length = 5)
    (hrows : ∀ row ∈ graph, row.length = 5) (hu0 : 0 ≤ u) (hu5 : u < 5)
    (hd : dist.length = 5) (hs : sptSet.length = 5) (hv : v < 5)
    (hmax : ∀ x ∈ dist, x ≤ INT_MAX) :
    ∃ dist2, relaxStep graph u sptSet dist v = .ok dist2 ∧
      dist2.length = 5 ∧ ∀ x ∈ dist2, x ≤ INT_MAX := by
  have hsv : v < sptSet.length := by omega
  have hdv : v < dist.length := by omega
  have hut : u.toNat < graph.length := by omega
  have hrow : (graph.get ⟨u.toNat, hut⟩).length = 5 :=
    hrows _ (List.get_mem _ _ _)
  have hrv : v < (graph.get ⟨u.toNat, hut⟩).length := by omega
  have hdu : u.toNat < dist.length := by omega
  have hreadG : ∀ line, readG graph line u v =
      .ok ((graph.get ⟨u.toNat, hut⟩).get ⟨v, hrv⟩) := by
    intro line
    rw [readG, readRow, dif_pos (⟨hu0, hut⟩ : 0 ≤ u ∧ u.toNat < graph.length),
      bindE_ok, readArr_ok _ line v hrv]
  have hreadI : ∀ line, readI dist line u = .ok (dist.get ⟨u.toNat, hdu⟩) := by
    intro line
    rw [readI, dif_pos (⟨hu0, hdu⟩ : 0 ≤ u ∧ u.toNat < dist.length)]
  rw [relaxStep, readArr_ok sptSet 46 v hsv, bindE_ok]
  by_cases h1 : sptSet.get ⟨v, hsv⟩ = 0
  · rw [if_pos h1, hreadG 46, bindE_ok]
    by_cases h2 : (graph.get ⟨u.toNat, hut⟩).get ⟨v, hrv⟩ ≠ 0
    · rw [if_pos h2, hreadI 46, bindE_ok]
      by_cases h3 : dist.get ⟨u.toNat, hdu⟩ ≠ INT_MAX
      · rw [if_pos h3, hreadI 47, bindE_ok, hreadG 47, bindE_ok,
          readArr_ok dist 47 v hdv, bindE_ok]
        by_cases h4 : dist.get ⟨u.toNat, hdu⟩ +
            (graph.get ⟨u.toNat, hut⟩).get ⟨v, hrv⟩ < dist.get ⟨v, hdv⟩
        · rw [if_pos h4, hreadI 48, bindE_ok, hreadG 48, bindE_ok,
            writeArr_ok dist 48 v _ hdv]
          refine ⟨_, rfl, by simp [hd], ?_⟩
          intro x hx
          rcases List.mem_or_eq_of_mem_set hx with hmem | rfl
          · exact hmax x hmem
          · have h5 := hmax _ (List.get_mem dist v hdv)
            omega
        · rw [if_neg h4]
          exact ⟨dist, rfl, hd, hmax⟩
      · rw [if_neg h3]
        exact ⟨dist, rfl, hd, hmax⟩
    · rw [if_neg h2]
      exact ⟨dist, rfl, hd, hmax⟩
  · rw [if_neg h1]
    exact ⟨dist, rfl, hd, hmax⟩

theorem relaxLoop_ok (graph : List (List Int)) (u : Int) (sptSet : List Int)
    (hg : graph.length = 5) (hrows : ∀ row ∈ graph, row.length = 5)
    (hu0 : 0 ≤ u) (hu5 : u < 5) (hs : sptSet.length = 5) :
    ∀ vs : List Nat, (∀ v ∈ vs, v < 5) → ∀ dist : List Int,
      dist.length = 5 → (∀ x ∈ dist, x ≤ INT_MAX) →
      ∃ dist2, relaxLoop graph u sptSet vs dist = .ok dist2 ∧
        dist2.length = 5 ∧ ∀ x ∈ dist2, x ≤ INT_MAX := by
  intro vs
  induction vs with
  | nil =>
    intro _ dist hd hmax
    exact ⟨dist, rfl, hd, hmax⟩
  | cons v vs ih =>
    intro hb dist hd hmax
    obtain ⟨dist1, h1, hl1, hm1⟩ := relaxStep_ok graph u sptSet dist v hg hrows
      hu0 hu5 hd hs (hb v (by simp)) hmax
    obtain ⟨dist2, h2, hl2, hm2⟩ := ih (fun x hx => hb x (by simp [hx])) dist1 hl1 hm1
    refine ⟨dist2, ?_, hl2, hm2⟩
    rw [relaxLoop, h1, bindE_ok]
    exact h2

theorem countZero_set_ge (l : List Int) :
    ∀ (n : Nat) (v : Int), countZero l - 1 ≤ countZero (l.set n v) := by
  induction l with
  | nil => intro n v; simp [countZero]
  | cons a l ih =>
    intro n v
    cases n with
    | zero =>
      simp only [List.set_cons_zero, countZero, List.countP_cons]
      split_ifs <;> omega
    | succ m =>
      simp only [List.set_cons_succ, countZero, List.countP_cons]
      have := ih m v
      simp only [countZero] at this
      split_ifs <;> omega

theorem exists_zero_of_countZero_pos (l : List Int) :
    0 < countZero l → ∃ v, v < l.length ∧ l.get? v = some 0 := by
  induction l with
  | nil => intro h; simp [countZero] at h
  | cons a l ih =>
    intro h
    by_cases ha : a = 0
    · exact ⟨0, by simp, by simp [ha]⟩
    · have hl : 0 < countZero l := by
        simpa [countZero, List.countP_cons, ha] using h
      obtain ⟨v, hv, hz⟩ := ih hl
      refine ⟨v + 1, by simp only [List.length_cons]; omega, by simpa using hz⟩

theorem outerLoop_ok (graph : List (List Int)) (hg : graph.length = 5)
    (hrows : ∀ row ∈ graph, row.length = 5) :
    ∀ (k : Nat) (st : List Int × List Int), st.1.length = 5 →
      st.2.length = 5 → (∀ x ∈ st.1, x ≤ INT_MAX) → k ≤ countZero st.2 →
      ∃ st2, outerLoop graph k st = .ok st2 ∧
        st2.1.length = 5 ∧ st2.2.length = 5 := by
  intro k
  induction k with
  | zero =>
    intro st h1 h2 _ _
    exact ⟨st, rfl, h1, h2⟩
  | succ k ih =>
    intro st hd hs hmax hcz
    obtain ⟨v, hv, hz⟩ := exists_zero_of_countZero_pos st.2 (by omega)
    obtain ⟨u, hmd, hu0, hu5⟩ := minDistance_ok st.1 st.2 hd hs hmax
      ⟨v, by omega, hz⟩
    have hut : u.toNat < st.2.length := by omega
    have hw : writeI st.2 42 u 1 = .ok (st.2.set u.toNat 1) := by
      rw [writeI, if_pos (⟨hu0, hut⟩ : 0 ≤ u ∧ u.toNat < st.2.length)]
    have hs2 : (st.2.set u.toNat 1).length = 5 := by simp [hs]
    have hcz2 : k ≤ countZero (st.2.set u.toNat 1) := by
      have := countZero_set_ge st.2 u.toNat 1
      omega
    obtain ⟨dist2, hrel, hdl2, hmax2⟩ := relaxLoop_ok graph u
      (st.2.set u.toNat 1) hg hrows hu0 hu5 hs2 (List.range 5)
      (fun x hx => List.mem_range.mp hx) st.1 hd hmax
    obtain ⟨st3, hrest, h31, h32⟩ := ih (dist2, st.2.set u.toNat 1) hdl2 hs2
      hmax2 hcz2
    refine ⟨st3, ?_, h31, h32⟩
    rw [outerLoop, outerBody, hmd, bindE_ok, hw, bindE_ok, hrel, bindE_ok, bindE_ok]
    exact hrest

theorem printLoop_ok (dist : List Int) (hd : dist.length = 5) :
    ∀ ks : List Nat, (∀ i ∈ ks, i < 5) → printLoop dist ks = .ok () := by
  intro ks
  induction ks with
  | nil => intro _; rfl
  | cons i ks ih =>
    intro hb
    rw [printLoop,
      readArr_ok dist 22 i (by have := hb i (by simp); omega), bindE_ok]
    exact ih (fun x hx => hb x (by simp [hx]))

theorem initLoop_safe_eval :
    initLoop (List.replicate 5 0, List.replicate 5 0) (List.range 5) =
      .ok (List.replicate 5 INT_MAX, List.replicate 5 0) := by
  rfl

end DijkstraSafe

/-- The adjacency matrix of `main` in dijkstra_safe.c. -/
def mainGraph : List (List Int) :=
  [[0, 10, 0, 30, 100], [10, 0, 50, 0, 0], [0, 50, 0, 20, 10],
   [30, 0, 20, 0, 60], [100, 0, 10, 60, 0]]

/-- Claim C4: every execution of `dijkstra` of dijkstra_safe.c on a 5x5
graph with a valid source stays within array bounds: all loops use strict
bounds, `minDistance` never returns its initial -1 (in each of the V-1
outer iterations some vertex is unvisited and every `int` distance is at
most INT_MAX, so the returned index lies in [0, V-1]), and with checked
indexing no access takes the out-of-bounds branch. -/
theorem dijkstra_safe_in_bounds (graph : List (List Int)) (src : Int)
    (hg : graph.length = 5) (hrows : ∀ row ∈ graph, row.length = 5)
    (hsrc0 : 0 ≤ src) (hsrc5 : src < 5) :
    ∃ out, DijkstraSafe.dijkstra graph src = .ok out := by
  have hst : src.toNat < (List.replicate 5 INT_MAX : List Int).length := by
    simp
    omega
  have hw : DijkstraSafe.writeI (List.replicate 5 INT_MAX) 37 src 0 =
      .ok ((List.replicate 5 INT_MAX).set src.toNat 0) := by
    rw [DijkstraSafe.writeI, if_pos (⟨hsrc0, hst⟩ :
      0 ≤ src ∧ src.toNat < (List.replicate 5 INT_MAX : List Int).length)]
  have hmax2 : ∀ x ∈ (List.replicate 5 INT_MAX : List Int).set src.toNat 0,
      x ≤ INT_MAX := by
    intro x hx
    rcases List.mem_or_eq_of_mem_set hx with hmem | rfl
    · rw [List.eq_of_mem_replicate hmem]
    · decide
  obtain ⟨st2, hout, h1, h2⟩ := DijkstraSafe.outerLoop_ok graph hg hrows 4
    ((List.replicate 5 INT_MAX).set src.toNat 0, List.replicate 5 0)
    (by simp) (by simp) hmax2
    (by show 4 ≤ DijkstraSafe.countZero (List.replicate 5 (0 : Int)); decide)
  refine ⟨st2, ?_⟩
  rw [DijkstraSafe.dijkstra, DijkstraSafe.initLoop_safe_eval, CExcept.bindE_ok, hw,
    CExcept.bindE_ok, hout, CExcept.bindE_ok,
    DijkstraSafe.printLoop_ok st2.1 h1 (List.range 5)
      (fun i hi => List.mem_range.mp hi), CExcept.bindE_ok]

/-- Witness for C4 at the concrete graph and source of `main`. -/
theorem dijkstra_safe_in_bounds_witness :
    mainGraph.length = 5 ∧ (∀ row ∈ mainGraph, row.length = 5) ∧
      (0 : Int) ≤ 0 ∧ (0 : Int) < 5 ∧
      ∃ out, DijkstraSafe.dijkstra mainGraph 0 = .ok out :=
  ⟨by decide, by decide, by decide, by decide,
    dijkstra_safe_in_bounds mainGraph 0 (by decide) (by decide) (by decide)
      (by decide)⟩

/-! ## str_copy.c: `strncpy` (the ESBMC reference model of the C library
function), against the C standard behavior -/

namespace StrCopy

/-- The copy loop `while (n && (*dst++ = *src++)) n--` of strncpy: each
iteration with nonzero `n` copies one byte and advances both pointers; `n`
is decremented only when the copied byte was nonzero, so the iteration
that copies the terminating NUL leaves `n` unchanged.  State: destination
memory, dst offset, src offset; returns the memory, the final dst offset
and the remaining `n`. -/
def copyLoop (src : Nat → Int) (dst : List Int) (di si : Nat) :
    Nat → List Int × Nat × Nat
  | 0 => (dst, di, 0)
  | m + 1 =>
    let c := src si
    let dst2 := dst.set di c
    if c ≠ 0 then copyLoop src dst2 (di + 1) (si + 1) m
    else (dst2, di + 1, m + 1)

/-- The pad loop `if (n) while (--n) *dst++ = '\0';`: guarded by `n != 0`,
pre-decrements and so writes `n - 1` NUL bytes. -/
def padLoop (dst : List Int) (di : Nat) : Nat → List Int
  | 0 => dst
  | 1 => dst
  | m + 2 => padLoop (dst.set di 0) (di + 1) (m + 1)

/-- `strncpy(dst, src, n)` of str_copy.c on a byte-array destination; the
second component is the returned pointer (`start`, offset 0 of `dst`). -/
def strncpy (dst : List Int) (src : Nat → Int) (n : Nat) : List Int × Nat :=
  let p := copyLoop src dst 0 0 n
  (if p.2.2 ≠ 0 then padLoop p.1 p.2.1 p.2.2 else p.1, 0)

/-- The C standard reference behavior of `strncpy(dst, src, n)` for a
NUL-terminated `src` of length `sLen`: the first `min sLen n` bytes come
from `src`, positions from there up to `n - 1` are NUL (so exactly `n`
bytes are written when `sLen < n`, and exactly `n` — with no NUL
terminator — when `sLen >= n`), bytes from `n` on are unchanged, and the
returned pointer is `dst` itself (offset 0). -/
def strncpyRef (dst : List Int) (src : Nat → Int) (sLen n : Nat) :
    List Int × Nat :=
  ((List.range dst.length).map fun i =>
    if i < min sLen n then src i
    else if i < n then 0
    else (dst[i]?).getD 0, 0)

theorem set_getElem_self (l : List Int) (n : Nat) (a : Int)
    (h : n < l.length) : (l.set n a)[n]? = some a := by
  rw [List.getElem?_set_self', List.getElem?_eq_getElem h]
  rfl

theorem set_getElem_ne (l : List Int) (m n : Nat) (a : Int) (h : m ≠ n) :
    (l.set m a)[n]? = l[n]? := List.getElem?_set_ne h

theorem copyLoop_length (src : Nat → Int) :
    ∀ (m : Nat) (dst : List Int) (di si : Nat),
      ((copyLoop src dst di si m).1).length = dst.length := by
  intro m
  induction m with
  | zero => intro dst di si; rfl
  | succ m ih =>
    intro dst di si
    rw [copyLoop]
    by_cases hc : src si ≠ 0
    · simp only [if_pos hc, ih]
      simp
    · simp only [if_neg hc]
      simp

theorem copyLoop_spec (src : Nat → Int) (sLen : Nat)
    (hsrc : ∀ j, j < sLen → src j ≠ 0) (hnul : src sLen = 0) :
    ∀ (m i : Nat) (dst : List Int), i ≤ sLen →
      i + min m (sLen + 1 - i) ≤ dst.length →
      (copyLoop src dst i i m).2.1 = i + min m (sLen + 1 - i) ∧
      (copyLoop src dst i i m).2.2 = m - min m (sLen - i) ∧
      ∀ j : Nat, ((copyLoop src dst i i m).1)[j]? =
        if i ≤ j ∧ j < i + min m (sLen + 1 - i) then some (src j)
        else dst[j]? := by
  intro m
  induction m with
  | zero =>
    intro i dst hi hb
    refine ⟨by simp [copyLoop], by simp [copyLoop], fun j => ?_⟩
    rw [copyLoop, if_neg (by omega)]
  | succ m ih =>
    intro i dst hi hb
    rcases Nat.lt_or_ge i sLen with hlt | hge
    · have hc : src i ≠ 0 := hsrc i hlt
      have heq : copyLoop src dst i i (m + 1) =
          copyLoop src (dst.set i (src i)) (i + 1) (i + 1) m := by
        rw [copyLoop]
        simp [hc]
      obtain ⟨ihd, ihn, ihg⟩ := ih (i + 1) (dst.set i (src i)) (by omega)
        (by simp only [List.length_set]; omega)
      refine ⟨?_, ?_, ?_⟩
      · rw [heq, ihd]
        omega
      · rw [heq, ihn]
        omega
      · intro j
        rw [heq, ihg j]
        by_cases hj : i ≤ j ∧ j < i + min (m + 1) (sLen + 1 - i)
        · rw [if_pos hj]
          by_cases hj2 : i + 1 ≤ j ∧ j < i + 1 + min m (sLen + 1 - (i + 1))
          · rw [if_pos hj2]
          · have hji : j = i := by omega
            rw [if_neg hj2, hji, set_getElem_self _ _ _ (by omega)]
        · rw [if_neg hj, if_neg (by omega), set_getElem_ne _ _ _ _ (by omega)]
    · have hie : i = sLen := by omega
      have hc : src i = 0 := by rw [hie, hnul]
      have heq : copyLoop src dst i i (m + 1) =
          (dst.set i (src i), i + 1, m + 1) := by
        rw [copyLoop]
        simp [hc]
      refine ⟨?_, ?_, ?_⟩
      · rw [heq]
        dsimp only
        omega
      · rw [heq]
        dsimp only
        omega
      · intro j
        rw [heq]
        dsimp only
        by_cases hj : i ≤ j ∧ j < i + min (m + 1) (sLen + 1 - i)
        · have hji : j = i := by omega
          rw [if_pos hj, hji, set_getElem_self _ _ _ (by omega)]
        · rw [if_neg hj, set_getElem_ne _ _ _ _ (by omega)]

theorem padLoop_length :
    ∀ (m : Nat) (dst : List Int) (di : Nat),
      (padLoop dst di m).length = dst.length := by
  intro m
  induction m using Nat.strong_induction_on with
  | _ m ih =>
    match m with
    | 0 => intro dst di; rfl
    | 1 => intro dst di; rfl
    | k + 2 =>
      intro dst di
      rw [padLoop, ih (k + 1) (by omega)]
      simp

theorem padLoop_get :
    ∀ (m : Nat) (dst : List Int) (di : Nat), di + (m - 1) ≤ dst.length →
      ∀ j : Nat, (padLoop dst di m)[j]? =
        if di ≤ j ∧ j < di + (m - 1) then some 0 else dst[j]? := by
  intro m
  induction m using Nat.strong_induction_on with
  | _ m ih =>
    match m with
    | 0 => intro dst di hb j; rw [padLoop, if_neg (by omega)]
    | 1 => intro dst di hb j; rw [padLoop, if_neg (by omega)]
    | k + 2 =>
      intro dst di hb j
      rw [padLoop, ih (k + 1) (by omega) _ _
        (by simp only [List.length_set]; omega)]
      by_cases hj : di ≤ j ∧ j < di + (k + 2 - 1)
      · rw [if_pos hj]
        by_cases hj2 : di + 1 ≤ j ∧ j < di + 1 + (k + 1 - 1)
        · rw [if_pos hj2]
        · have hji : j = di := by omega
          rw [if_neg hj2, hji, set_getElem_self _ _ _ (by omega)]
      · rw [if_neg hj, if_neg (by omega), set_getElem_ne _ _ _ _ (by omega)]

end StrCopy

/-- Claim C8: the `strncpy` of str_copy.c equals the C standard reference
behavior: for every NUL-terminated `src` of length `sLen` and every
`n ≤ dst.length`, it copies the first `min sLen n` bytes of `src`, pads
with NUL so that exactly `n` bytes are written when `sLen < n` (because
`n` is not decremented on the iteration copying the NUL), writes exactly
`n` bytes with no NUL terminator when `sLen >= n`, leaves bytes beyond
index `n - 1` unchanged, and returns the original `dst` pointer. -/
theorem strncpy_matches_ref (dst : List Int) (src : Nat → Int) (sLen n : Nat)
    (hn : n ≤ dst.length) (hsrc : ∀ j, j < sLen → src j ≠ 0)
    (hnul : src sLen = 0) :
    StrCopy.strncpy dst src n = StrCopy.strncpyRef dst src sLen n := by
  obtain ⟨hdi, hnn, hget⟩ := StrCopy.copyLoop_spec src sLen hsrc hnul n 0 dst
    (by omega) (by omega)
  simp only [Nat.sub_zero, Nat.zero_add] at hdi hnn hget
  rw [Prod.ext_iff]
  refine ⟨?_, rfl⟩
  apply List.ext_getElem?
  intro j
  have href : (StrCopy.strncpyRef dst src sLen n).1[j]? =
      if j < dst.length then
        some (if j < min sLen n then src j
          else if j < n then 0 else (dst[j]?).getD 0)
      else none := by
    rw [StrCopy.strncpyRef]
    rcases Nat.lt_or_ge j dst.length with hj | hj
    · rw [List.getElem?_map, List.getElem?_range hj, if_pos hj]
      rfl
    · rw [if_neg (by omega), List.getElem?_eq_none (by simp [hj])]
  have hlhs : (StrCopy.strncpy dst src n).1 =
      if n - min n sLen ≠ 0 then
        StrCopy.padLoop (StrCopy.copyLoop src dst 0 0 n).1
          (min n (sLen + 1)) (n - min n sLen)
      else (StrCopy.copyLoop src dst 0 0 n).1 := by
    rw [StrCopy.strncpy, hdi, hnn]
  rcases Nat.lt_or_ge sLen n with hcase | hcase
  · have hmin1 : min n (sLen + 1) = sLen + 1 := by omega
    have hmin2 : n - min n sLen = n - sLen := by omega
    rw [hlhs, hmin1, hmin2, if_pos (by omega), href,
      StrCopy.padLoop_get (n - sLen) _ _
        (by rw [StrCopy.copyLoop_length]; omega) j, hget j]
    rcases Nat.lt_or_ge j dst.length with hj | hj
    · rw [if_pos hj]
      by_cases h1 : j < min sLen n
      · rw [if_neg (by omega), if_pos (by omega), if_pos (by omega)]
      · by_cases h2 : j < n
        · by_cases h3 : j = sLen
          · rw [if_neg (by omega), if_pos (by omega), h3, hnul,
              if_neg (by omega), if_pos (by omega)]
          · rw [if_pos (by omega), if_neg (by omega), if_pos (by omega)]
        · rw [if_neg (by omega), if_neg (by omega), if_neg (by omega),
            if_neg (by omega)]
          obtain ⟨v, hv⟩ : ∃ v, dst[j]? = some v :=
            ⟨dst[j], List.getElem?_eq_getElem hj⟩
          rw [hv]
          rfl
    · rw [if_neg (by omega), if_neg (by omega), if_neg (by omega),
        List.getElem?_eq_none (by omega)]
  · have hmin2 : n - min n sLen = 0 := by omega
    rw [hlhs, hmin2, if_neg (by omega), hget j, href]
    rcases Nat.lt_or_ge j dst.length with hj | hj
    · rw [if_pos hj]
      by_cases h1 : j < n
      · rw [if_pos (by omega), if_pos (by omega)]
      · rw [if_neg (by omega), if_neg (by omega), if_neg (by omega)]
        obtain ⟨v, hv⟩ : ∃ v, dst[j]? = some v :=
          ⟨dst[j], List.getElem?_eq_getElem hj⟩
        rw [hv]
        rfl
    · rw [if_neg (by omega), if_neg (by omega),
        List.getElem?_eq_none (by omega)]

/-- Witness for C8: a concrete padded case (`sLen = 2 < n = 4`) on a
length-5 destination. -/
theorem strncpy_matches_ref_witness :
    4 ≤ ([9, 9, 9, 9, 9] : List Int).length ∧
      StrCopy.strncpy [9, 9, 9, 9, 9] (fun i => if i < 2 then 7 else 0) 4 =
        StrCopy.strncpyRef [9, 9, 9, 9, 9] (fun i => if i < 2 then 7 else 0) 2 4 :=
  ⟨by decide,
    strncpy_matches_ref [9, 9, 9, 9, 9] (fun i => if i < 2 then 7 else 0) 2 4
      (by decide)
      (fun j hj => by
        rcases (by omega : j = 0 ∨ j = 1) with rfl | rfl <;> decide)
      (by decide)⟩

/-! ## sign_check.c (optimize-code) -/

namespace SignCheck

def is_negative (a : Int) : Bool := decide (a ≠ 0) && decide (a < 0)

def is_positive (a : Int) : Bool := decide (a ≥ 0) && decide (a ≠ 0)

def is_zero (a : Int) : Bool := decide (a = 0)

/-- `work` with the nondeterministic int made a parameter. -/
def work (nondet : Int) : Int :=
  if is_zero nondet then 0
  else if is_positive nondet then 1
  else -1

/-- `assert` at a given source line: error carries the line of the failing assert. -/
def check (line : Nat) (b : Bool) : Except Nat Unit :=
  if b then .ok () else .error line

/-- `main` of sign_check.c: the asserts in source order (lines 36-41). -/
def mainRun (nondet : Int) : Except Nat Int := do
  check 36 (is_negative (-1))
  check 37 (!is_zero (-1))
  check 38 (is_zero 0)
  check 39 (is_positive 0)
  check 40 (is_positive 100)
  check 41 (decide (work nondet ≠ 0))
  pure 0

end SignCheck

/-! ## function_test.c (ast) -/

namespace FunctionTest

structure Point where
  x : Int
  y : Int
deriving DecidableEq

def add_point (p : Point) : Int := p.x + p.y

def add (val1 val2 : Int) : Int := val1 + val2

/-- `main` of function_test.c: assignments then `assert(a == 9)` at line 30. -/
def mainRun : Except Nat Unit :=
  let a := add 2 2
  let b := add 6 0
  let p1 : Point := ⟨a, b⟩
  let a := add_point p1
  if a = 9 then .ok () else .error 30

end FunctionTest

/-- Claim C9: `is_positive a` holds iff `a > 0`, `is_negative a` holds iff
`a < 0`, exactly one of negative/zero/positive holds for each `a`,
`is_positive 0` is false, and every execution of `main` (for every value of
the nondeterministic int read inside `work`) fails the assert at line 39. -/
theorem sign_check_claims :
    (∀ a : Int, SignCheck.is_positive a = true ↔ 0 < a) ∧
    (∀ a : Int, SignCheck.is_negative a = true ↔ a < 0) ∧
    (∀ a : Int,
      [SignCheck.is_negative a, SignCheck.is_zero a, SignCheck.is_positive a].count true = 1) ∧
    SignCheck.is_positive 0 = false ∧
    (∀ nondet : Int, SignCheck.mainRun nondet = .error 39) := by
  refine ⟨?_, ?_, ?_, rfl, ?_⟩
  · intro a
    simp [SignCheck.is_positive]
    omega
  · intro a
    simp [SignCheck.is_negative]
    omega
  · intro a
    rcases lt_trichotomy a 0 with h | h | h
    · simp [SignCheck.is_negative, SignCheck.is_zero, SignCheck.is_positive, h,
        ne_of_lt h, not_lt_of_gt h, List.count_cons]
    · subst h
      rfl
    · simp [SignCheck.is_negative, SignCheck.is_zero, SignCheck.is_positive, h,
        ne_of_gt h, not_lt_of_gt h, le_of_lt h, List.count_cons]
  · intro nondet
    rfl

/-- Claim C10: in `main` of function_test.c, `a = add 2 2 = 4`,
`b = add 6 0 = 6`, `add_point {4, 6} = 10`, and the final
`assert(a == 9)` at line 30 fails on every execution. -/
theorem function_test_claims :
    FunctionTest.add 2 2 = 4 ∧
    FunctionTest.add 6 0 = 6 ∧
    FunctionTest.add_point ⟨4, 6⟩ = 10 ∧
    FunctionTest.mainRun = .error 30 := by
  exact ⟨rfl, rfl, rfl, rfl⟩

/-! ## The static bug-pattern checker of the specification

The checker has no source in the repository; it is modelled from the
specification text (sections 3, 4.3-4.5, 8). -/

namespace Checker

/-- Modelled from the spec: the per-pointer abstract status
`{Live(size), Freed, Unknown, Null}` of an AbstractState. -/
inductive PStat where
  | unknown
  | null
  | freed
  | live (size : Nat)
deriving DecidableEq

/-- Modelled from the spec: the BoundsFact `{InBounds, MaybeOOB, Unknown}`
of an AbstractState. -/
inductive BFact where
  | inBounds
  | maybeOOB
  | unknown
deriving DecidableEq

/-- Lattice join of pointer statuses: `Unknown` is top, equal statuses join
to themselves. -/
def pjoin (a b : PStat) : PStat := if a = b then a else .unknown

/-- Lattice join of bounds facts: `Unknown` is top. -/
def bjoin (a b : BFact) : BFact := if a = b then a else .unknown

/-- `Freed` meeting `Live` is the spec's conflict (the state merged to
`Unknown` but flagged). -/
def pconflict (a b : PStat) : Bool :=
  match a, b with
  | .freed, .live _ => true
  | .live _, .freed => true
  | _, _ => false

/-- Modelled from the spec: an AbstractState maps variables to a
PointerStatus plus the Unknown-but-flagged conflict mark, and index
expressions to a BoundsFact.  Variables and index expressions are
identified by name. -/
@[ext] structure AbstractState where
  ptr : String → PStat
  conflict : String → Bool
  bounds : String → BFact

/-- Join of abstract states at a control-flow merge: pointwise lattice
join; a `Freed`/`Live` disagreement sets the variable's conflict flag. -/
def join (s1 s2 : AbstractState) : AbstractState where
  ptr := fun v => pjoin (s1.ptr v) (s2.ptr v)
  conflict := fun v =>
    s1.conflict v || s2.conflict v || pconflict (s1.ptr v) (s2.ptr v)
  bounds := fun e => bjoin (s1.bounds e) (s2.bounds e)

theorem pconflict_self (a : PStat) : pconflict a a = false := by
  cases a <;> rfl

theorem pjoin_self (a : PStat) : pjoin a a = a := if_pos rfl

theorem pjoin_ne (a b : PStat) (h : a ≠ b) : pjoin a b = .unknown := if_neg h

theorem pjoin_top_left (a : PStat) : pjoin .unknown a = .unknown := by
  rw [pjoin]
  split <;> rfl

theorem pjoin_top_right (a : PStat) : pjoin a .unknown = .unknown := by
  rw [pjoin]
  split
  · assumption
  · rfl

theorem pjoin_assoc (a b c : PStat) :
    pjoin (pjoin a b) c = pjoin a (pjoin b c) := by
  by_cases hab : a = b
  · subst hab
    rw [pjoin_self]
    by_cases hac : a = c
    · subst hac
      rw [pjoin_self, pjoin_self]
    · rw [pjoin_ne a c hac, pjoin_top_right]
  · rw [pjoin_ne a b hab, pjoin_top_left]
    by_cases hbc : b = c
    · subst hbc
      rw [pjoin_self, pjoin_ne a b hab]
    · rw [pjoin_ne b c hbc, pjoin_top_right]

theorem bjoin_assoc (a b c : BFact) :
    bjoin (bjoin a b) c = bjoin a (bjoin b c) := by
  cases a <;> cases b <;> cases c <;> rfl

/-- The three concrete single-variable states of the associativity
counterexample: a Live pointer, the same pointer Freed, and no
information. -/
def stLive : AbstractState :=
  ⟨fun _ => .live 1, fun _ => false, fun _ => .unknown⟩

def stFreed : AbstractState :=
  ⟨fun _ => .freed, fun _ => false, fun _ => .unknown⟩

def stTop : AbstractState :=
  ⟨fun _ => .unknown, fun _ => false, fun _ => .unknown⟩

end Checker

/-- Counterexample for C5: the claim (join idempotent, commutative,
associative and conflict-monotone) is false as stated because
associativity fails on the conflict flags: joining a Live state with a
Freed state flags the conflict, but joining the Freed state with an
all-Unknown state first loses the `Freed` status, so the conflict is never
flagged. -/
theorem join_assoc_counterexample :
    Checker.join (Checker.join Checker.stLive Checker.stFreed) Checker.stTop ≠
      Checker.join Checker.stLive (Checker.join Checker.stFreed Checker.stTop) := by
  intro h
  have h2 := congrArg (fun s => s.conflict "p") h
  simp only [Checker.join, Checker.stLive, Checker.stFreed, Checker.stTop,
    Checker.pjoin, Checker.pconflict] at h2
  cases h2

/-- Claim C5 (amended): the AbstractState join is idempotent and
commutative, it is monotone (a conflict once flagged survives any further
join), and it is associative on the PointerStatus and BoundsFact
components; associativity of the conflict flag itself fails (see the
counterexample). -/
theorem join_algebra :
    (∀ s : Checker.AbstractState, Checker.join s s = s) ∧
    (∀ s1 s2 : Checker.AbstractState,
      Checker.join s1 s2 = Checker.join s2 s1) ∧
    (∀ (s1 s2 : Checker.AbstractState) (v : String),
      s1.conflict v = true → (Checker.join s1 s2).conflict v = true) ∧
    (∀ (s1 s2 s3 : Checker.AbstractState) (v : String),
      (Checker.join (Checker.join s1 s2) s3).ptr v =
        (Checker.join s1 (Checker.join s2 s3)).ptr v) ∧
    (∀ (s1 s2 s3 : Checker.AbstractState) (e : String),
      (Checker.join (Checker.join s1 s2) s3).bounds e =
        (Checker.join s1 (Checker.join s2 s3)).bounds e) := by
  refine ⟨?_, ?_, ?_, ?_, ?_⟩
  · intro s
    ext v
    · simp [Checker.join, Checker.pjoin]
    · simp [Checker.join, Checker.pconflict_self]
    · simp [Checker.join, Checker.bjoin]
  · intro s1 s2
    ext v
    · simp only [Checker.join, Checker.pjoin]
      by_cases h : s1.ptr v = s2.ptr v
      · rw [if_pos h, if_pos h.symm, h]
      · rw [if_neg h, if_neg (fun hh => h hh.symm)]
    · simp only [Checker.join]
      cases h1 : s1.conflict v <;> cases h2 : s2.conflict v <;>
        cases hp : s1.ptr v <;> cases hq : s2.ptr v <;>
        simp [Checker.pconflict]
    · simp only [Checker.join, Checker.bjoin]
      by_cases h : s1.bounds v = s2.bounds v
      · rw [if_pos h, if_pos h.symm, h]
      · rw [if_neg h, if_neg (fun hh => h hh.symm)]
  · intro s1 s2 v h
    simp [Checker.join, h]
  · intro s1 s2 s3 v
    simp only [Checker.join]
    exact Checker.pjoin_assoc _ _ _
  · intro s1 s2 s3 e
    simp only [Checker.join]
    exact Checker.bjoin_assoc _ _ _

/-- Witness for the amended C5 at concrete states: a flagged conflict on
`stFreed` (obtained by joining Live with Freed) survives a further join
with the no-information state. -/
theorem join_algebra_witness :
    (Checker.join Checker.stLive Checker.stFreed).conflict "p" = true ∧
      (Checker.join (Checker.join Checker.stLive Checker.stFreed)
        Checker.stTop).conflict "p" = true :=
  ⟨by simp [Checker.join, Checker.stLive, Checker.stFreed, Checker.pconflict],
    join_algebra.2.2.1 (Checker.join Checker.stLive Checker.stFreed)
      Checker.stTop "p"
      (by simp [Checker.join, Checker.stLive, Checker.stFreed, Checker.pconflict])⟩

/-! ## The Abstract State Tracker's worklist fixed point (spec section 4.3) -/

namespace Tracker

/-- Modelled from the spec: the per-variable abstract lattice of the
Abstract State Tracker, with an explicit bottom for not-yet-reached
states; `unknown` is top (finite height, the spec's "3-4 levels"). -/
inductive PVal where
  | bot
  | null
  | freed
  | live (size : Nat)
  | unknown
deriving DecidableEq

/-- Lattice join: bottom is neutral, equal values join to themselves,
distinct facts lose to the top `unknown`. -/
def vjoin (a b : PVal) : PVal :=
  if a = b then a
  else if a = .bot then b
  else if b = .bot then a
  else .unknown

/-- Rank in the lattice order; joins that change a value strictly increase
it. -/
def prank : PVal → Nat
  | .bot => 0
  | .unknown => 2
  | _ => 1

/-- Modelled from the spec: the statements the transfer functions
interpret — allocation, free, and dereference at a statically-known
index — each tagged with a source position. -/
inductive Stmt where
  | alloc (line col v size : Nat)
  | free (line col v : Nat)
  | deref (line col v : Nat) (idx : Int)
deriving DecidableEq

/-- Transfer function of one statement on the per-variable state vector:
allocation makes the variable `live size`, free makes it `freed`, a
dereference leaves the state unchanged (it only yields candidate facts
consumed by the Rule Engine). -/
def transferStmt (s : List PVal) : Stmt → List PVal
  | .alloc _ _ v size => s.set v (.live size)
  | .free _ _ v => s.set v .freed
  | .deref _ _ _ _ => s

def transferB (s : List PVal) : List Stmt → List PVal
  | [] => s
  | st :: sts => transferB (transferStmt s st) sts

/-- Modelled from the spec: a function's flow graph — variable count,
basic blocks as statement lists, explicit successor edges (loop back-edges
included, not unrolled); block 0 is the entry. -/
structure Cfg where
  nVars : Nat
  blocks : List (List Stmt)
  succs : List (List Nat)
deriving DecidableEq

def Cfg.wf (c : Cfg) : Prop :=
  c.succs.length = c.blocks.length ∧
  ∀ ss ∈ c.succs, ∀ b ∈ ss, b < c.blocks.length

instance (c : Cfg) : Decidable c.wf := by
  unfold Cfg.wf
  infer_instance

/-- Join the block's exit state into each successor's entry state; returns
the updated entry map and the successors whose entry changed (to be
re-pushed). -/
def processSuccs (exitS : List PVal) :
    List Nat → List (List PVal) → List (List PVal) × List Nat
  | [], entries => (entries, [])
  | b :: bs, entries =>
    let cur := entries.getD b []
    let joined := List.zipWith vjoin cur exitS
    if joined = cur then processSuccs exitS bs entries
    else
      let p := processSuccs exitS bs (entries.set b joined)
      (p.1, b :: p.2)

/-- One worklist step: pop a block, run the transfer functions over its
statements, propagate the exit state to the successors; `none` when the
worklist is empty (the fixed point is reached). -/
def wlStep (c : Cfg) (entries : List (List PVal)) :
    List Nat → Option (List (List PVal) × List Nat)
  | [] => none
  | b :: rest =>
    let exitS := transferB (entries.getD b []) (c.blocks.getD b [])
    let p := processSuccs exitS (c.succs.getD b []) entries
    some (p.1, rest ++ p.2)

/-- Fuelled worklist iteration: `some` on reaching the fixed point, `none`
on fuel exhaustion. -/
def wlRun (c : Cfg) : Nat → List (List PVal) → List Nat →
    Option (List (List PVal))
  | 0, _, _ => none
  | fuel + 1, entries, wl =>
    match wlStep c entries wl with
    | none => some entries
    | some p => wlRun c fuel p.1 p.2

/-- Initial entry states: the entry block seeded with all variables
`unknown`, all other blocks not yet reached. -/
def initEntries (c : Cfg) : List (List PVal) :=
  (List.replicate c.blocks.length (List.replicate c.nVars .bot)).set 0
    (List.replicate c.nVars .unknown)

def srank (s : List PVal) : Nat := (s.map prank).sum

def erank (es : List (List PVal)) : Nat := (es.map srank).sum

def maxRank (c : Cfg) : Nat := 2 * c.nVars * c.blocks.length

def sumSuccs (c : Cfg) : Nat := (c.succs.map List.length).sum

/-- Fuel that provably suffices for the fixed point (`tracker_terminates`). -/
def fuelBound (c : Cfg) : Nat := (sumSuccs c + 1) * maxRank c + 2

/-- Invariant of the worklist iteration. -/
def Inv (c : Cfg) (entries : List (List PVal)) (wl : List Nat) : Prop :=
  entries.length = c.blocks.length ∧ (∀ e ∈ entries, e.length = c.nVars) ∧
  ∀ x ∈ wl, x < c.blocks.length

/-- Termination measure of the worklist iteration. -/
def wlMeasure (c : Cfg) (entries : List (List PVal)) (wl : List Nat) : Nat :=
  (sumSuccs c + 1) * (maxRank c - erank entries) + wl.length

end Tracker

namespace Tracker

theorem prank_le_two (a : PVal) : prank a ≤ 2 := by
  cases a <;> simp [prank]

theorem vjoin_rank_le (a b : PVal) : prank a ≤ prank (vjoin a b) := by
  rw [vjoin]
  split_ifs with h1 h2 h3
  · exact le_refl _
  · rw [h2]
    exact Nat.zero_le _
  · exact le_refl _
  · exact prank_le_two a

theorem vjoin_rank_lt (a b : PVal) (h : vjoin a b ≠ a) :
    prank a < prank (vjoin a b) := by
  rw [vjoin] at h ⊢
  split_ifs at h ⊢ with h1 h2 h3
  · exact absurd rfl h
  · rw [h2]
    cases b <;> simp_all [prank]
  · exact absurd rfl h
  · cases a <;> simp_all [prank]

theorem srank_cons (a : PVal) (s : List PVal) :
    srank (a :: s) = prank a + srank s := by
  simp [srank]

theorem srank_zip_le : ∀ s t : List PVal, s.length = t.length →
    srank s ≤ srank (List.zipWith vjoin s t) := by
  intro s
  induction s with
  | nil => intro t _; simp [srank]
  | cons a s ih =>
    intro t hlen
    cases t with
    | nil => cases hlen
    | cons b t =>
      rw [List.zipWith_cons_cons, srank_cons, srank_cons]
      exact Nat.add_le_add (vjoin_rank_le a b) (ih t (by simpa using hlen))

theorem srank_zip_lt : ∀ s t : List PVal, s.length = t.length →
    List.zipWith vjoin s t ≠ s → srank s < srank (List.zipWith vjoin s t) := by
  intro s
  induction s with
  | nil => intro t _ h; cases t <;> simp at h
  | cons a s ih =>
    intro t hlen hne
    cases t with
    | nil => cases hlen
    | cons b t =>
      rw [List.zipWith_cons_cons] at hne ⊢
      rw [srank_cons, srank_cons]
      by_cases hh : vjoin a b = a
      · have htl : List.zipWith vjoin s t ≠ s := by
          intro he
          exact hne (by rw [hh, he])
        have := ih t (by simpa using hlen) htl
        rw [hh]
        omega
      · have h1 := vjoin_rank_lt a b hh
        have h2 := srank_zip_le s t (by simpa using hlen)
        omega

theorem srank_le_bound : ∀ s : List PVal, srank s ≤ 2 * s.length := by
  intro s
  induction s with
  | nil => simp [srank]
  | cons a s ih =>
    rw [srank_cons]
    have := prank_le_two a
    simp only [List.length_cons]
    omega

theorem erank_cons (s : List PVal) (es : List (List PVal)) :
    erank (s :: es) = srank s + erank es := by
  simp [erank]

theorem erank_le_bound (nV : Nat) :
    ∀ es : List (List PVal), (∀ e ∈ es, e.length = nV) →
      erank es ≤ es.length * (2 * nV) := by
  intro es
  induction es with
  | nil => intro _; simp [erank]
  | cons s es ih =>
    intro hmem
    rw [erank_cons]
    have h1 : srank s ≤ 2 * nV := by
      have := srank_le_bound s
      rw [hmem s (by simp)] at this
      exact this
    have h2 := ih (fun e he => hmem e (by simp [he]))
    simp only [List.length_cons]
    have : (es.length + 1) * (2 * nV) = es.length * (2 * nV) + 2 * nV := by ring
    omega

theorem erank_set_le : ∀ (es : List (List PVal)) (b : Nat) (s2 : List PVal),
    srank (es.getD b []) ≤ srank s2 → erank es ≤ erank (es.set b s2) := by
  intro es
  induction es with
  | nil => intro b s2 _; simp
  | cons s es ih =>
    intro b s2 h
    cases b with
    | zero =>
      simp only [List.getD_cons_zero] at h
      simp only [List.set_cons_zero, erank_cons]
      omega
    | succ m =>
      simp only [List.getD_cons_succ] at h
      simp only [List.set_cons_succ, erank_cons]
      have := ih m s2 h
      omega

theorem erank_set_lt : ∀ (es : List (List PVal)) (b : Nat) (s2 : List PVal),
    b < es.length → srank (es.getD b []) < srank s2 →
    erank es < erank (es.set b s2) := by
  intro es
  induction es with
  | nil => intro b s2 hb _; simp at hb
  | cons s es ih =>
    intro b s2 hb h
    cases b with
    | zero =>
      simp only [List.getD_cons_zero] at h
      simp only [List.set_cons_zero, erank_cons]
      omega
    | succ m =>
      simp only [List.getD_cons_succ] at h
      simp only [List.set_cons_succ, erank_cons]
      have := ih m s2 (by simpa using hb) h
      omega

theorem getD_mem_of_lt {α : Type} (l : List α) (b : Nat) (d : α)
    (h : b < l.length) : l.getD b d ∈ l := by
  rw [List.getD_eq_get?, List.get?_eq_get h]
  exact List.get_mem _ _ _

theorem transferStmt_length (s : List PVal) (st : Stmt) :
    (transferStmt s st).length = s.length := by
  cases st <;> simp [transferStmt]

theorem transferB_length : ∀ (sts : List Stmt) (s : List PVal),
    (transferB s sts).length = s.length := by
  intro sts
  induction sts with
  | nil => intro s; rfl
  | cons st sts ih =>
    intro s
    rw [transferB, ih, transferStmt_length]

theorem processSuccs_spec (exitS : List PVal) (nV : Nat)
    (hex : exitS.length = nV) :
    ∀ (bs : List Nat) (entries : List (List PVal)),
      (∀ e ∈ entries, e.length = nV) → (∀ x ∈ bs, x < entries.length) →
      ((processSuccs exitS bs entries).1).length = entries.length ∧
      (∀ e ∈ (processSuccs exitS bs entries).1, e.length = nV) ∧
      erank entries ≤ erank (processSuccs exitS bs entries).1 ∧
      ((processSuccs exitS bs entries).2 = [] →
        (processSuccs exitS bs entries).1 = entries) ∧
      ((processSuccs exitS bs entries).2 ≠ [] →
        erank entries < erank (processSuccs exitS bs entries).1) ∧
      (∀ x ∈ (processSuccs exitS bs entries).2, x < entries.length) ∧
      (processSuccs exitS bs entries).2.length ≤ bs.length := by
  intro bs
  induction bs with
  | nil =>
    intro entries hmem _
    have heq : processSuccs exitS [] entries = (entries, []) := by
      rw [processSuccs]
    rw [heq]
    exact ⟨rfl, hmem, le_refl _, fun _ => rfl, fun h => absurd rfl h,
      fun x hx => absurd hx (List.not_mem_nil x), by simp⟩
  | cons b bs ih =>
    intro entries hmem hval
    have hb : b < entries.length := hval b (by simp)
    have hcur : (entries.getD b []).length = nV :=
      hmem _ (getD_mem_of_lt entries b [] hb)
    by_cases hch : List.zipWith vjoin (entries.getD b []) exitS = entries.getD b []
    · have heq : processSuccs exitS (b :: bs) entries =
          processSuccs exitS bs entries := by
        rw [processSuccs, if_pos hch]
      obtain ⟨h1, h2, h3, h4, h5, h6, h7⟩ :=
        ih entries hmem (fun x hx => hval x (by simp [hx]))
      rw [heq]
      exact ⟨h1, h2, h3, h4, h5, h6, by simp only [List.length_cons]; omega⟩
    · have hjl : (List.zipWith vjoin (entries.getD b []) exitS).length = nV := by
        rw [List.length_zipWith]
        omega
      have hset : ∀ e ∈ entries.set b (List.zipWith vjoin (entries.getD b []) exitS),
          e.length = nV := by
        intro e he
        rcases List.mem_or_eq_of_mem_set he with h | h
        · exact hmem e h
        · rw [h]; exact hjl
      have hrk : erank entries <
          erank (entries.set b (List.zipWith vjoin (entries.getD b []) exitS)) :=
        erank_set_lt entries b _ hb
          (srank_zip_lt _ _ (by omega) hch)
      obtain ⟨h1, h2, h3, h4, h5, h6, h7⟩ :=
        ih (entries.set b (List.zipWith vjoin (entries.getD b []) exitS)) hset
          (fun x hx => by
            have := hval x (by simp [hx])
            simpa using this)
      have heq : processSuccs exitS (b :: bs) entries =
          ((processSuccs exitS bs
            (entries.set b (List.zipWith vjoin (entries.getD b []) exitS))).1,
           b :: (processSuccs exitS bs
            (entries.set b (List.zipWith vjoin (entries.getD b []) exitS))).2) := by
        rw [processSuccs, if_neg hch]
      rw [heq]
      dsimp only
      have hlen2 : (entries.set b
          (List.zipWith vjoin (entries.getD b []) exitS)).length =
          entries.length := by simp
      refine ⟨by rw [h1, hlen2], h2, by omega, ?_, fun _ => by omega, ?_, ?_⟩
      · intro h
        exact absurd h (List.cons_ne_nil _ _)
      · intro x hx
        rcases List.mem_cons.mp hx with rfl | hx2
        · exact hb
        · have := h6 x hx2
          omega
      · simp only [List.length_cons]
        omega

end Tracker

namespace Tracker

theorem getD_length_le_sum : ∀ (ls : List (List Nat)) (b : Nat),
    (ls.getD b []).length ≤ (ls.map List.length).sum := by
  intro ls
  induction ls with
  | nil => intro b; cases b <;> simp
  | cons l ls ih =>
    intro b
    cases b with
    | zero => simp
    | succ m =>
      simp only [List.getD_cons_succ, List.map_cons, List.sum_cons]
      have := ih m
      omega

theorem wlRun_ok (c : Cfg) (hwf : c.wf) :
    ∀ (fuel : Nat) (entries : List (List PVal)) (wl : List Nat),
      Inv c entries wl → wlMeasure c entries wl < fuel →
      wlRun c fuel entries wl ≠ none := by
  intro fuel
  induction fuel with
  | zero => intro entries wl _ hm; omega
  | succ fuel ih =>
    intro entries wl hInv hm
    match wl with
    | [] =>
      rw [wlRun]
      have hstep : wlStep c entries [] = none := by rw [wlStep]
      rw [hstep]
      simp
    | b :: rest =>
      obtain ⟨hlen, hmem, hwl⟩ := hInv
      have hb : b < c.blocks.length := hwl b (by simp)
      have hb2 : b < entries.length := by omega
      have hexlen : (transferB (entries.getD b []) (c.blocks.getD b [])).length
          = c.nVars := by
        rw [transferB_length]
        exact hmem _ (getD_mem_of_lt entries b [] hb2)
      have hsuccs : ∀ x ∈ c.succs.getD b [], x < c.blocks.length := by
        rcases Nat.lt_or_ge b c.succs.length with hb3 | hb3
        · intro x hx
          exact hwf.2 _ (getD_mem_of_lt c.succs b [] hb3) x hx
        · intro x hx
          rw [List.getD_eq_default _ _ hb3] at hx
          cases hx
      obtain ⟨p1, p2, p3, p4, p5, p6, p7⟩ := processSuccs_spec
        (transferB (entries.getD b []) (c.blocks.getD b [])) c.nVars hexlen
        (c.succs.getD b []) entries hmem (fun x hx => by
          have := hsuccs x hx
          omega)
      have hstep : wlStep c entries (b :: rest) =
          some ((processSuccs (transferB (entries.getD b [])
              (c.blocks.getD b [])) (c.succs.getD b []) entries).1,
            rest ++ (processSuccs (transferB (entries.getD b [])
              (c.blocks.getD b [])) (c.succs.getD b []) entries).2) := by
        rw [wlStep]
      rw [wlRun, hstep]
      have hInv2 : Inv c
          (processSuccs (transferB (entries.getD b []) (c.blocks.getD b []))
            (c.succs.getD b []) entries).1
          (rest ++ (processSuccs (transferB (entries.getD b [])
            (c.blocks.getD b [])) (c.succs.getD b []) entries).2) := by
        refine ⟨by omega, p2, ?_⟩
        intro x hx
        rcases List.mem_append.mp hx with h | h
        · exact hwl x (by simp [h])
        · have := p6 x h
          omega
      apply ih _ _ hInv2
      -- the measure strictly decreased
      have hmax : erank (processSuccs (transferB (entries.getD b [])
          (c.blocks.getD b [])) (c.succs.getD b []) entries).1 ≤ maxRank c := by
        have := erank_le_bound c.nVars _ p2
        rw [p1] at this
        rw [maxRank]
        have hcomm : entries.length * (2 * c.nVars) =
            2 * c.nVars * c.blocks.length := by
          rw [hlen]; ring
        omega
      have hpush : (processSuccs (transferB (entries.getD b [])
          (c.blocks.getD b [])) (c.succs.getD b []) entries).2.length ≤
          sumSuccs c := by
        have h1 := getD_length_le_sum c.succs b
        rw [sumSuccs]
        omega
      by_cases hch : (processSuccs (transferB (entries.getD b [])
          (c.blocks.getD b [])) (c.succs.getD b []) entries).2 = []
      · rw [p4 hch, hch]
        rw [wlMeasure] at hm ⊢
        simp only [List.length_append, List.length_cons, List.length_nil] at hm ⊢
        omega
      · have hlt := p5 hch
        rw [wlMeasure] at hm ⊢
        simp only [List.length_append, List.length_cons] at hm ⊢
        have hd1 : maxRank c - erank (processSuccs (transferB (entries.getD b [])
            (c.blocks.getD b [])) (c.succs.getD b []) entries).1 ≤
            maxRank c - erank entries - 1 := by omega
        have hd2 : (sumSuccs c + 1) *
            (maxRank c - erank (processSuccs (transferB (entries.getD b [])
              (c.blocks.getD b [])) (c.succs.getD b []) entries).1) ≤
            (sumSuccs c + 1) * (maxRank c - erank entries - 1) :=
          Nat.mul_le_mul_left _ hd1
        have hd3 : (sumSuccs c + 1) * (maxRank c - erank entries - 1) +
            (sumSuccs c + 1) = (sumSuccs c + 1) * (maxRank c - erank entries) := by
          rw [← Nat.mul_succ]
          congr 1
          omega
        omega

end Tracker

/-- Claim C6: for every well-formed flow graph (finite blocks, valid
successor edges, back-edges allowed) the Abstract State Tracker's worklist
iteration terminates: with the fuel `fuelBound c` computed from the finite
lattice height and the block count — with no bound on the number of loop
iterations of the analyzed program — the fixed-point computation returns a
result (never `none`). -/
theorem tracker_terminates (c : Tracker.Cfg) (hwf : c.wf)
    (hpos : 0 < c.blocks.length) :
    Tracker.wlRun c (Tracker.fuelBound c) (Tracker.initEntries c) [0] ≠
      none := by
  apply Tracker.wlRun_ok c hwf
  · refine ⟨by simp [Tracker.initEntries], ?_, ?_⟩
    · intro e he
      rcases List.mem_or_eq_of_mem_set he with h | h
      · rw [List.eq_of_mem_replicate h]
        simp
      · rw [h]
        simp
    · intro x hx
      simp only [List.mem_singleton] at hx
      omega
  · rw [Tracker.wlMeasure, Tracker.fuelBound]
    have h1 : Tracker.maxRank c - Tracker.erank (Tracker.initEntries c) ≤
        Tracker.maxRank c := by omega
    have h2 := Nat.mul_le_mul_left (Tracker.sumSuccs c + 1) h1
    simp only [List.length_singleton]
    omega

/-- The two-block flow graph with a loop back-edge used as the C6 witness:
block 0 allocates variable 0, block 1 frees it and loops back to block 0. -/
def loopCfg : Tracker.Cfg :=
  ⟨1, [[.alloc 1 3 0 4], [.free 2 3 0]], [[1], [0]]⟩

/-- Witness for C6: the worklist fixed point of the looping flow graph
terminates within the computed fuel. -/
theorem tracker_terminates_witness :
    loopCfg.wf ∧ 0 < loopCfg.blocks.length ∧
      Tracker.wlRun loopCfg (Tracker.fuelBound loopCfg)
        (Tracker.initEntries loopCfg) [0] ≠ none :=
  ⟨by decide, by decide, tracker_terminates loopCfg (by decide) (by decide)⟩

namespace Tracker

/-- Modelled from the spec: a Finding with
`{file, line, column, ruleId, severity, message}`; rule ids: 1 = MaybeOOB,
2 = UseAfterFree, 3 = DoubleFree. -/
structure Finding where
  file : Nat
  line : Nat
  column : Nat
  ruleId : Nat
  severity : Nat
  message : String
deriving DecidableEq

/-- Rule Engine (spec 4.4): the findings one statement produces in the
abstract state holding before it — a free of an already-`Freed` pointer, a
dereference of a `Freed` pointer, a dereference of a `Live(size)` pointer
at a statically out-of-range index. -/
def ruleStmt (file : Nat) (s : List PVal) : Stmt → List Finding
  | .alloc _ _ _ _ => []
  | .free line col v =>
    match s.getD v .bot with
    | .freed => [⟨file, line, col, 3, 2, "double free"⟩]
    | _ => []
  | .deref line col v idx =>
    match s.getD v .bot with
    | .freed => [⟨file, line, col, 2, 2, "use after free"⟩]
    | .live size =>
      if idx < 0 ∨ (size : Int) ≤ idx then
        [⟨file, line, col, 1, 1, "possible out-of-bounds"⟩]
      else []
    | _ => []

/-- Walk a block's statements from its entry state, applying the transfer
function in order and collecting findings. -/
def ruleBlock (file : Nat) (s : List PVal) : List Stmt → List Finding
  | [] => []
  | st :: sts => ruleStmt file s st ++ ruleBlock file (transferStmt s st) sts

/-- All findings of all blocks at the fixed point. -/
def collectFindings (file : Nat) (c : Cfg) (entries : List (List PVal)) :
    List Finding :=
  (List.range c.blocks.length).foldr
    (fun b acc => ruleBlock file (entries.getD b []) (c.blocks.getD b []) ++ acc)
    []

/-- Report Builder key order `(file, line, column, ruleId)`, lexicographic. -/
def keyLe (a b : Finding) : Bool :=
  decide (a.file < b.file) ||
  (decide (a.file = b.file) && (decide (a.line < b.line) ||
    (decide (a.line = b.line) && (decide (a.column < b.column) ||
      (decide (a.column = b.column) && decide (a.ruleId ≤ b.ruleId))))))

/-- Stable insertion into a sorted list. -/
def insertF (f : Finding) : List Finding → List Finding
  | [] => [f]
  | g :: gs => if keyLe f g then f :: g :: gs else g :: insertF f gs

/-- Report Builder (spec 4.5): stable insertion sort by
`(file, line, column, ruleId)`. -/
def sortFindings : List Finding → List Finding
  | [] => []
  | f :: fs => insertF f (sortFindings fs)

/-- The analyzer pipeline on one parsed function: worklist fixed point,
Rule Engine, Report Builder.  The fuel `fuelBound` always suffices for a
well-formed graph (`tracker_terminates`); the initial entry map is used as
a fallback so the pipeline is total. -/
def analyze (file : Nat) (c : Cfg) : List Finding :=
  sortFindings (collectFindings file c
    ((wlRun c (fuelBound c) (initEntries c) [0]).getD (initEntries c)))

theorem keyLe_total (a b : Finding) : keyLe a b = true ∨ keyLe b a = true := by
  rw [keyLe, keyLe]
  simp only [Bool.or_eq_true, Bool.and_eq_true, decide_eq_true_eq]
  omega

theorem insertF_head (f : Finding) :
    ∀ l : List Finding, (insertF f l).head? = some f ∨
      (insertF f l).head? = l.head? := by
  intro l
  cases l with
  | nil => exact Or.inl rfl
  | cons g gs =>
    rw [insertF]
    by_cases hle : keyLe f g = true
    · rw [if_pos hle]
      exact Or.inl rfl
    · rw [if_neg hle]
      exact Or.inr rfl

theorem chain_insertF (f : Finding) :
    ∀ l : List Finding, List.Chain' (fun a b => keyLe a b = true) l →
      List.Chain' (fun a b => keyLe a b = true) (insertF f l) := by
  intro l
  induction l with
  | nil => intro _; simp [insertF]
  | cons g gs ih =>
    intro h
    rw [insertF]
    by_cases hle : keyLe f g = true
    · rw [if_pos hle]
      exact List.chain'_cons.mpr ⟨hle, h⟩
    · rw [if_neg hle]
      have hparts := List.chain'_cons'.mp h
      rw [List.chain'_cons']
      refine ⟨?_, ih hparts.2⟩
      intro y hy
      rcases insertF_head f gs with hh | hh
      · rw [hh] at hy
        have hyf : f = y := by simpa using hy
        rw [← hyf]
        rcases keyLe_total f g with h1 | h1
        · exact absurd h1 hle
        · exact h1
      · rw [hh] at hy
        exact hparts.1 y hy

theorem sorted_sortFindings (l : List Finding) :
    List.Chain' (fun a b => keyLe a b = true) (sortFindings l) := by
  induction l with
  | nil => simp [sortFindings]
  | cons f fs ih =>
    rw [sortFindings]
    exact chain_insertF f _ ih

end Tracker

/-- Claim C7: the analyzer is deterministic — it is a pure function of its
input, so two runs on identical input yield the same ordered Finding
sequence — and the exposed sequence is in the Report Builder's canonical
`(file, line, column, ruleId)` order. -/
theorem analyzer_deterministic (file : Nat) (c : Tracker.Cfg) :
    Tracker.analyze file c = Tracker.analyze file c ∧
      List.Chain' (fun a b => Tracker.keyLe a b = true)
        (Tracker.analyze file c) :=
  ⟨rfl, Tracker.sorted_sortFindings _⟩
